import Mathlib

/-!
# Verification of exvpn-api core components

A shallow embedding, over `List Char` and `Nat`, of the core pure logic of the
exvpn-api repository:

* `src/services/management/ip_utils.py` — IPv4 parsing and the `get_next_available_ip`
  allocator (mirroring Python's `ipaddress.IPv4Network` semantics, including the
  special-cased host iteration for /31 and /32 networks);
* `src/services/awg_configurator.py` — the flat-text peer-config document operations
  (`add_client_peer`, `_remove_peer_block`, `_build_peer_block`, `_extract_peer_ips`,
  `calculate_next_ip`);
* `src/services/amnezia_config_decoder.py` — the `vpn://` codec (`encode_config`,
  `decode_config`), with `json` and `zlib` modelled as collaborator contracts and
  base64url implemented concretely;
* `src/services/client_service.py` — the create/delete peer orchestration with
  explicit fault injection for each collaborator call.

Python strings are modelled as `List Char`, bytes as `List Nat` (each < 256),
machine-level integers as `Nat` with explicit bounds.  Fallible calls return
`Except PyErr`.
-/

/-- Convenience: the character list of a string literal. -/
def lc (s : String) : List Char := s.toList

/-- The ASCII whitespace characters stripped by Python's `str.strip()`
(space, tab, newline, carriage return, vertical tab, form feed).
`str.strip()` also strips some non-ASCII Unicode whitespace; the documents
manipulated here are ASCII, so only the ASCII set is modelled. -/
def isPyWs (c : Char) : Bool :=
  c = ' ' || c = '\t' || c = '\n' || c = '\r' || c = '\x0b' || c = '\x0c'

/-- Remove trailing Python whitespace (the right half of `str.strip()`). -/
def dropTrailWs (s : List Char) : List Char :=
  (s.reverse.dropWhile isPyWs).reverse

/-- Python's `str.strip()` with no argument. -/
def pyStrip (s : List Char) : List Char :=
  dropTrailWs (s.dropWhile isPyWs)

/-- Python's `str.rstrip("=")` / `str.rstrip('=')`: remove trailing `=` characters. -/
def rstripEq (s : List Char) : List Char :=
  (s.reverse.dropWhile (fun c => c = '=')).reverse

/-- `lstartsWith p s` is true when `p` is an initial segment of `s`
(Python's `s.startswith(p)`). -/
def lstartsWith : List Char → List Char → Bool
  | [], _ => true
  | _ :: _, [] => false
  | a :: as, b :: bs => a = b && lstartsWith as bs

/-- `containsSub p s` is true when `p` occurs as a contiguous substring of `s`
(Python's `p in s`). -/
def containsSub (p s : List Char) : Bool :=
  (List.range (s.length + 1)).any (fun i => lstartsWith p (s.drop i))

/-- The recursion core of `splitOnSep`, structurally recursive on a fuel bound
so that concrete documents evaluate inside `decide`.  Fuel never runs out when
it starts at the string's length (theorem `splitOnSepF_mono`). -/
def splitOnSepF (sep : List Char) : Nat → List Char → List (List Char)
  | _, [] => [[]]
  | 0, s => [s]
  | fuel+1, c :: rest =>
    if sep.length ≠ 0 ∧ lstartsWith sep (c :: rest) = true then
      [] :: splitOnSepF sep fuel ((c :: rest).drop sep.length)
    else
      match splitOnSepF sep fuel rest with
      | [] => [[c]]
      | p :: ps => (c :: p) :: ps

/-- Python's `str.split(sep)` for a non-empty separator: a left-to-right scan
splitting at each non-overlapping occurrence of `sep`.  (On an empty separator
the scan makes no progress; Python raises there, and no caller passes one.) -/
def splitOnSep (sep : List Char) (s : List Char) : List (List Char) :=
  splitOnSepF sep s.length s

/-- The recursion core of `replaceAll`, structurally recursive on a fuel bound. -/
def replaceAllF (p : List Char) : Nat → List Char → List Char
  | _, [] => []
  | 0, s => s
  | fuel+1, c :: rest =>
    if p.length ≠ 0 ∧ lstartsWith p (c :: rest) = true then
      replaceAllF p fuel ((c :: rest).drop p.length)
    else
      c :: replaceAllF p fuel rest

/-- Python's `str.replace(old, new)` with `new = ""` and non-empty `old`:
remove every occurrence of `old`, scanning left to right. -/
def replaceAll (p : List Char) (s : List Char) : List Char :=
  replaceAllF p s.length s

/-- Python's `sep.join(parts)`. -/
def joinSep (sep : List Char) : List (List Char) → List Char
  | [] => []
  | [x] => x
  | x :: y :: rest => x ++ sep ++ joinSep sep (y :: rest)

/-- Python's `str.split(sep, 1)` for a single-character separator: split at the
first occurrence only. -/
def splitFirst (sep : Char) (s : List Char) : List (List Char) :=
  match h : splitOnSep [sep] s with
  | [] => [s]
  | [x] => [x]
  | x :: y :: rest => [x, joinSep [sep] (y :: rest)]

/-- Helper for `splitLines`: `acc` holds the current line reversed. -/
def splitLinesGo : List Char → List Char → List (List Char)
  | acc, [] => [acc.reverse]
  | acc, '\r' :: '\n' :: r => acc.reverse :: (if r.isEmpty then [] else splitLinesGo [] r)
  | acc, '\r' :: r => acc.reverse :: (if r.isEmpty then [] else splitLinesGo [] r)
  | acc, '\n' :: r => acc.reverse :: (if r.isEmpty then [] else splitLinesGo [] r)
  | acc, c :: r => splitLinesGo (c :: acc) r

/-- Python's `str.splitlines()` restricted to the line terminators that occur in
the documents here (`\n`, `\r`, `\r\n`); a trailing terminator produces no
trailing empty line. -/
def splitLines (s : List Char) : List (List Char) :=
  if s.isEmpty then [] else splitLinesGo [] s

/-! ## Peer-config document operations (`src/services/awg_configurator.py`) -/

/-- The stanza marker `"\n[Peer]"` on which `_remove_peer_block` splits the document. -/
def peerMarker : List Char := lc "\n[Peer]"

/-- `AWGService._build_peer_block` (awg_configurator.py lines 245-251). -/
def build_peer_block (public_key client_ip psk : List Char) : List Char :=
  lc "[Peer]\nPublicKey = " ++ public_key ++
  lc "\nPresharedKey = " ++ psk ++
  lc "\nAllowedIPs = " ++ client_ip ++ lc "/32\n"

/-- The document transformation performed by `AWGService.add_client_peer`
(awg_configurator.py line 140): `content.strip() + "\n\n" + peer_block + "\n"`. -/
def add_client_peer_doc (content public_key client_ip psk : List Char) : List Char :=
  pyStrip content ++ lc "\n\n" ++ build_peer_block public_key client_ip psk ++ lc "\n"

/-- `AWGService._remove_peer_block` (awg_configurator.py lines 253-269). -/
def remove_peer_block (content public_key : List Char) : List Char :=
  let sections := splitOnSep peerMarker content
  if sections.length = 1 then content
  else
    let header := pyStrip (sections.headD [])
    let peers := sections.tail.map (fun sec => lc "[Peer]" ++ sec)
    let kept := (peers.filter
      (fun peer => !(containsSub (lc "PublicKey = " ++ public_key) peer))).map pyStrip
    let result := if kept.isEmpty then header
      else header ++ lc "\n\n" ++ joinSep (lc "\n\n") kept
    pyStrip result ++ ['\n']

/-- `AWGService._extract_peer_ips` (awg_configurator.py lines 271-283). -/
def extract_peer_ips (content : List Char) : List (List Char) :=
  (splitLines content).foldr
    (fun rawLine acc =>
      let line := pyStrip rawLine
      if lstartsWith (lc "AllowedIPs") line then
        match splitFirst '=' line with
        | [_, value] =>
          let ip_part := pyStrip ((splitFirst ',' (pyStrip value)).headD [])
          let ip := pyStrip ((splitFirst '/' ip_part).headD [])
          if ip.isEmpty then acc else ip :: acc
        | _ => acc
      else acc)
    []

/-! ## Document parsing (the semantic view used by the spec's properties)

A document is read, exactly as `_remove_peer_block` reads it, as one header
section followed by stanzas introduced by the `"\n[Peer]"` marker.  `headerOf`
and `stanzasOf` give the whitespace-normalized (stripped) components. -/

/-- The stripped header section of a document. -/
def headerOf (doc : List Char) : List Char :=
  pyStrip ((splitOnSep peerMarker doc).headD [])

/-- The stripped peer stanzas of a document, each with its `[Peer]` head restored. -/
def stanzasOf (doc : List Char) : List (List Char) :=
  (splitOnSep peerMarker doc).tail.map (fun sec => pyStrip (lc "[Peer]" ++ sec))

/-- Semantic document equality: same stripped header and same stripped stanzas. -/
def semEqDoc (d1 d2 : List Char) : Prop :=
  headerOf d1 = headerOf d2 ∧ stanzasOf d1 = stanzasOf d2

instance (d1 d2 : List Char) : Decidable (semEqDoc d1 d2) := by
  unfold semEqDoc
  infer_instance

/-- The `PublicKey = <key>` needle that `_remove_peer_block` searches for in a stanza. -/
def keyLine (public_key : List Char) : List Char :=
  lc "PublicKey = " ++ public_key

/-- A document contains a stanza for a key when some stanza contains the
`PublicKey = <key>` text (the criterion `_remove_peer_block` itself uses). -/
def docHasPeerFor (doc public_key : List Char) : Bool :=
  (stanzasOf doc).any (fun st => containsSub (keyLine public_key) st)

/-! ## Errors -/

/-- Cleanup steps of `ClientService.delete_client` whose failures are collected
(client_service.py lines 154-177); each tag stands for the f-string appended to
`errors` at the corresponding call site. -/
inductive CleanupStep where
  | removePeer
  | syncConfig
  | minioAwg
  | minioAmnezia
deriving DecidableEq, Repr

/-- Python exceptions raised by the modelled code paths. -/
inductive PyErr where
  /-- `TypeError` (e.g. calling a function with the wrong number of arguments). -/
  | typeError
  /-- `ValueError` (includes `ipaddress` parse errors and the decoder's length check). -/
  | valueError
  /-- `zlib.error` from `zlib.decompress`. -/
  | zlibError
  /-- `binascii.Error` from `base64.urlsafe_b64decode`. -/
  | binasciiError
  /-- `OverflowError` from `int.to_bytes` on an out-of-range value. -/
  | overflowError
  /-- `StopIteration` from `next()` on an exhausted iterator. -/
  | stopIteration
  /-- `AWGServiceError` (sync failures and other AWG service errors). -/
  | awgServiceError
  /-- `ConfigParseError` (config document missing on read). -/
  | configParseError
  /-- `ClientNotFoundServiceError`. -/
  | clientNotFound
  /-- `ServerNotConfiguredServiceError`. -/
  | serverNotConfigured
  /-- Wrapped MinIO `S3Error`. -/
  | minioError
  /-- A database error from the persistence layer. -/
  | dbError
  /-- The `AWGServiceError("Client deleted but cleanup had errors: ...")` raised at
  client_service.py line 182, carrying the collected cleanup failures. -/
  | cleanupError (steps : List CleanupStep)
deriving DecidableEq, Repr

instance {ε α : Type} [DecidableEq ε] [DecidableEq α] : DecidableEq (Except ε α) :=
  fun a b =>
    match a, b with
    | Except.ok x, Except.ok y =>
      if h : x = y then isTrue (by rw [h]) else
        isFalse (fun hh => h (Except.ok.inj hh))
    | Except.ok _, Except.error _ => isFalse (fun hh => Except.noConfusion hh)
    | Except.error _, Except.ok _ => isFalse (fun hh => Except.noConfusion hh)
    | Except.error e, Except.error f =>
      if h : e = f then isTrue (by rw [h]) else
        isFalse (fun hh => h (Except.error.inj hh))

/-! ## IPv4 model (`ipaddress` stdlib semantics used by `ip_utils.py`) -/

/-- Decimal digit value of a character, if it is an ASCII digit. -/
def digitVal (c : Char) : Option Nat :=
  if '0' ≤ c ∧ c ≤ '9' then some (c.toNat - '0'.toNat) else none

/-- Parse one dotted-quad octet as `IPv4Address._parse_octet` does: 1-3 ASCII
digits, no leading zero (except `"0"` itself), value at most 255. -/
def parseOctet (s : List Char) : Option Nat :=
  if s.length = 0 ∨ 3 < s.length then none
  else if ¬ (s.all (fun c => decide ('0' ≤ c ∧ c ≤ '9'))) then none
  else if 1 < s.length ∧ s.headD '0' = '0' then none
  else
    let v := s.foldl (fun a c => a * 10 + (c.toNat - '0'.toNat)) 0
    if v ≤ 255 then some v else none

/-- Parse a dotted-quad IPv4 address string into its 32-bit numeric value
(`ipaddress.IPv4Address` on a `str`). -/
def parseIPv4 (s : List Char) : Option Nat :=
  match (splitOnSep ['.'] s).map parseOctet with
  | [some a, some b, some c, some d] => some (((a * 256 + b) * 256 + c) * 256 + d)
  | _ => none

/-- The recursion core of `natToChars`, structurally recursive on a fuel bound. -/
def natToCharsF : Nat → Nat → List Char
  | 0, n => [Char.ofNat ('0'.toNat + n % 10)]
  | fuel+1, n =>
    if n < 10 then [Char.ofNat ('0'.toNat + n)]
    else natToCharsF fuel (n / 10) ++ [Char.ofNat ('0'.toNat + n % 10)]

/-- Decimal digit characters of a natural number (no sign, no leading zeros). -/
def natToChars (n : Nat) : List Char :=
  natToCharsF n n

/-- `str(IPv4Address(n))`: the canonical dotted-quad form of a 32-bit value. -/
def ipToString (n : Nat) : List Char :=
  natToChars (n / 16777216 % 256) ++ ['.'] ++
  natToChars (n / 65536 % 256) ++ ['.'] ++
  natToChars (n / 256 % 256) ++ ['.'] ++
  natToChars (n % 256)

/-- Parse a prefix length as `_prefix_from_prefix_string`: ASCII digits only,
value at most 32.  (The dotted-netmask alternative accepted by `ipaddress` is
not modelled; no document in this system can produce one.) -/
def parsePrefixLen (s : List Char) : Option Nat :=
  if s.length = 0 ∨ ¬ (s.all (fun c => decide ('0' ≤ c ∧ c ≤ '9'))) then none
  else
    let v := s.foldl (fun a c => a * 10 + (c.toNat - '0'.toNat)) 0
    if v ≤ 32 then some v else none

/-- `IPv4Network(s, strict=False)`: returns (network address with host bits
masked off, prefix length).  A missing `/part` means a /32 host network; more
than one `/` is an error. -/
def parseNetwork (s : List Char) : Option (Nat × Nat) :=
  match splitOnSep ['/'] s with
  | [addr] => (parseIPv4 addr).map (fun ip => (ip, 32))
  | [addr, pfx] =>
    match parseIPv4 addr, parsePrefixLen pfx with
    | some ip, some p => some (ip / 2 ^ (32 - p) * 2 ^ (32 - p), p)
    | _, _ => none
  | _ => none

/-- `IPv4Network.hosts()` as a list, in iteration order: for prefixes up to 30
the addresses strictly between network and broadcast; for /31 both addresses;
for /32 the single address (CPython `ipaddress.IPv4Network.hosts`). -/
def hostsList (net p : Nat) : List Nat :=
  if p ≤ 30 then (List.range (2 ^ (32 - p) - 2)).map (fun i => net + 1 + i)
  else if p = 31 then [net, net + 1]
  else [net]

/-- `ip_utils.validate_ip`. -/
def validate_ip (s : List Char) : Bool :=
  (parseIPv4 s).isSome

/-- `ip_utils.get_next_available_ip(subnet, existing_ips)` (ip_utils.py lines 35-41):
parse the subnet, collect the parseable reserved addresses, and return the first
host not reserved; `ValueError` when the subnet is invalid or exhausted. -/
def get_next_available_ip (subnet : List Char) (existing_ips : List (List Char)) :
    Except PyErr (List Char) :=
  match parseNetwork subnet with
  | none => Except.error PyErr.valueError
  | some (net, p) =>
    let existing := existing_ips.filterMap parseIPv4
    match (hostsList net p).find? (fun ip => !(existing.any (fun e => e == ip))) with
    | some ip => Except.ok (ipToString ip)
    | none => Except.error PyErr.valueError

/-- `AWGService._get_server_ip` (awg_configurator.py lines 285-288):
`next(IPv4Network(subnet, strict=False).hosts())` and the prefix length. -/
def get_server_ip (subnet : List Char) : Except PyErr (List Char × Nat) :=
  match parseNetwork subnet with
  | none => Except.error PyErr.valueError
  | some (net, p) =>
    match (hostsList net p).head? with
    | some ip => Except.ok (ipToString ip, p)
    | none => Except.error PyErr.stopIteration

/-! ## Dynamic call model

`AWGService.calculate_next_ip` (awg_configurator.py line 134) calls
`get_next_available_ip(subnet, existing_ips, [server_ip])` with three positional
arguments, while the definition in ip_utils.py line 35 declares exactly two
parameters and no defaults.  Python resolves argument counts at call time, so
the call is modelled through an untyped function-object with an explicit
parameter count: applying it to a different number of arguments raises
`TypeError`, as CPython does. -/

/-- An untyped Python value (only the shapes these call sites need). -/
inductive PyVal where
  | str (s : List Char)
  | list (l : List PyVal)

/-- A Python function object: declared positional parameter count plus behaviour. -/
structure PyFunction where
  paramCount : Nat
  run : List PyVal → Except PyErr PyVal

/-- Python call semantics for positional arguments and no defaults: a call with
the wrong number of arguments raises `TypeError` before the body runs. -/
def pyCall (f : PyFunction) (args : List PyVal) : Except PyErr PyVal :=
  if args.length = f.paramCount then f.run args else Except.error PyErr.typeError

/-- The function object for `ip_utils.get_next_available_ip`: two declared
parameters (`subnet`, `existing_ips`); the body is `get_next_available_ip`. -/
def get_next_available_ip_fn : PyFunction where
  paramCount := 2
  run := fun args =>
    match args with
    | [PyVal.str subnet, PyVal.list ips] =>
      let strs := ips.filterMap (fun v => match v with | PyVal.str s => some s | _ => none)
      (get_next_available_ip subnet strs).map PyVal.str
    | _ => Except.error PyErr.typeError

/-- `AWGService.calculate_next_ip` (awg_configurator.py lines 131-134): computes
the server address, then calls `get_next_available_ip(subnet, existing_ips,
[server_ip])` — three arguments against a two-parameter function. -/
def calculate_next_ip (subnet : List Char) (existing_ips : List (List Char)) :
    Except PyErr (List Char) :=
  match get_server_ip subnet with
  | Except.error e => Except.error e
  | Except.ok (server_ip, _) =>
    match pyCall get_next_available_ip_fn
        [PyVal.str subnet, PyVal.list (existing_ips.map PyVal.str),
         PyVal.list [PyVal.str server_ip]] with
    | Except.ok (PyVal.str s) => Except.ok s
    | Except.ok _ => Except.error PyErr.typeError
    | Except.error e => Except.error e

/-! ## Base64url (`base64.urlsafe_b64encode` / `urlsafe_b64decode`)

Bytes are `Nat` values below 256.  Decoding follows CPython's non-strict
`binascii.a2b_base64`: trailing padding is skipped (so excess `=` characters
are tolerated), then complete groups of four characters plus a final group of
two or three are decoded; a final group of one character is an error. -/

/-- The urlsafe base64 alphabet. -/
def b64alphabet : List Char :=
  lc "ABCDEFGHIJKLMNOPQRSTUVWXYZabcdefghijklmnopqrstuvwxyz0123456789-_"

/-- Character for a 6-bit value. -/
def b64char (n : Nat) : Char := b64alphabet.getD n 'A'

/-- Index search helper. -/
def b64indexGo : List Char → Char → Nat → Option Nat
  | [], _, _ => none
  | a :: as, c, i => if a = c then some i else b64indexGo as c (i + 1)

/-- 6-bit value of an alphabet character. -/
def b64index (c : Char) : Option Nat := b64indexGo b64alphabet c 0

/-- `base64.urlsafe_b64encode` (with padding). -/
def b64encodeBytes : List Nat → List Char
  | [] => []
  | [b1] => [b64char (b1 / 4), b64char (b1 % 4 * 16), '=', '=']
  | [b1, b2] => [b64char (b1 / 4), b64char (b1 % 4 * 16 + b2 / 16), b64char (b2 % 16 * 4), '=']
  | b1 :: b2 :: b3 :: rest =>
    b64char (b1 / 4) :: b64char (b1 % 4 * 16 + b2 / 16) ::
    b64char (b2 % 16 * 4 + b3 / 64) :: b64char (b3 % 64) :: b64encodeBytes rest

/-- Decode after padding removal: groups of four characters, with a final group
of two or three characters producing one or two bytes. -/
def b64decodeChunks : List Char → Option (List Nat)
  | [] => some []
  | [_] => none
  | [c1, c2] =>
    match b64index c1, b64index c2 with
    | some s1, some s2 => some [s1 * 4 + s2 / 16]
    | _, _ => none
  | [c1, c2, c3] =>
    match b64index c1, b64index c2, b64index c3 with
    | some s1, some s2, some s3 => some [s1 * 4 + s2 / 16, s2 % 16 * 16 + s3 / 4]
    | _, _, _ => none
  | c1 :: c2 :: c3 :: c4 :: rest =>
    match b64index c1, b64index c2, b64index c3, b64index c4 with
    | some s1, some s2, some s3, some s4 =>
      (b64decodeChunks rest).map
        (fun tail => (s1 * 4 + s2 / 16) :: (s2 % 16 * 16 + s3 / 4) :: (s3 % 4 * 64 + s4) :: tail)
    | _, _, _, _ => none

/-- `base64.urlsafe_b64decode` (non-strict padding handling). -/
def urlsafe_b64decode (s : List Char) : Option (List Nat) :=
  b64decodeChunks (rstripEq s)

/-- `int.from_bytes(bs, byteorder='big')`. -/
def beBytesToNat (bs : List Nat) : Nat :=
  bs.foldl (fun a b => a * 256 + b) 0

/-- `n.to_bytes(4, byteorder='big')` for `n < 2^32`. -/
def natToBytesBE4 (n : Nat) : List Nat :=
  [n / 16777216 % 256, n / 65536 % 256, n / 256 % 256, n % 256]

/-! ## Collaborator contracts for `json` and `zlib`

`encode_config`/`decode_config` call the standard library's `json` and `zlib`.
Those are collaborators, not code of this repository; they are modelled as
records carrying the standard guarantees the decoder relies on: deflate is
lossless, and `json.loads` inverts `json.dumps` on a serializable document. -/

/-- A model of `zlib.compress` / `zlib.decompress`: a lossless byte codec whose
decompressor fails only with `zlib.error`. -/
structure ZlibModel where
  compress : List Nat → List Nat
  decompress : List Nat → Except PyErr (List Nat)
  decompress_compress : ∀ bs, decompress (compress bs) = Except.ok bs
  compress_bytes : ∀ bs, (∀ b ∈ bs, b < 256) → ∀ b ∈ compress bs, b < 256

/-- A model of `json.dumps(·).encode()` / `json.loads` over an abstract document
type `Doc` of JSON-serializable values: `loads` inverts `dumps`, and `dumps`
produces bytes. -/
structure JsonModel (Doc : Type) where
  dumps : Doc → List Nat
  loads : List Nat → Except PyErr Doc
  loads_dumps : ∀ x, loads (dumps x) = Except.ok x
  dumps_bytes : ∀ x, ∀ b ∈ dumps x, b < 256

/-- `amnezia_config_decoder.encode_config` (lines 25-31): serialize, deflate,
prepend the 4-byte big-endian uncompressed length, base64url-encode, strip
padding, prefix `vpn://`.  `int.to_bytes(4, 'big')` raises `OverflowError`
beyond 2^32 - 1. -/
def encode_config {Doc : Type} (J : JsonModel Doc) (Z : ZlibModel) (config : Doc) :
    Except PyErr (List Char) :=
  let json_bytes := J.dumps config
  let compressed := Z.compress json_bytes
  if json_bytes.length < 4294967296 then
    Except.ok (lc "vpn://" ++
      rstripEq (b64encodeBytes (natToBytesBE4 json_bytes.length ++ compressed)))
  else Except.error PyErr.overflowError

/-- `amnezia_config_decoder.decode_config` (lines 7-22): strip the scheme via
`str.replace`, re-pad (`4 - len % 4` padding characters, even when the length
is already a multiple of four), base64url-decode, read the 4-byte big-endian
length field, decompress the remainder, reject on a length mismatch
(`ValueError`, not caught by the `except zlib.error` clause), and parse the
JSON; on `zlib.error` fall back to parsing the raw decoded bytes as JSON. -/
def decode_config {Doc : Type} (J : JsonModel Doc) (Z : ZlibModel)
    (encoded_string : List Char) : Except PyErr Doc :=
  let encoded_data := replaceAll (lc "vpn://") encoded_string
  let padding := 4 - encoded_data.length % 4
  match urlsafe_b64decode (encoded_data ++ List.replicate padding '=') with
  | none => Except.error PyErr.binasciiError
  | some compressed_data =>
    let original_data_len := beBytesToNat (compressed_data.take 4)
    match Z.decompress (compressed_data.drop 4) with
    | Except.ok decompressed =>
      if decompressed.length ≠ original_data_len then Except.error PyErr.valueError
      else J.loads decompressed
    | Except.error PyErr.zlibError => J.loads compressed_data
    | Except.error e => Except.error e

/-! ## Orchestration model (`src/services/client_service.py`)

State visible to the provisioning flows: the live config document, the
persistence rows, and the set of published artifact keys.  Each fallible
collaborator call gets a fault-injection flag; a set flag means that call
raises at its call site. -/

/-- A persistence row (`Client` model): row id, public key, address, artifact key. -/
structure PeerRec where
  rid : Nat
  clientName : List Char
  pubKey : List Char
  ip : List Char
  psk : List Char
  configKey : Option (List Char)
deriving DecidableEq, Repr

/-- The world state the orchestration mutates. -/
structure WorldState where
  doc : List Char
  db : List PeerRec
  minio : List (List Char)
  nextId : Nat
deriving DecidableEq, Repr

/-- The server profile fields `create_client`/`delete_client` read
(`ServerConfig` row).  Empty strings are falsy in Python, so presence checks
compare against the empty list. -/
structure SrvCfg where
  server_public_key : List Char
  container_name : List Char
  awg_subnet_ip : List Char
deriving DecidableEq, Repr

/-- Fault-injection plan for one `create_client` run: each flag makes the
corresponding collaborator call raise. -/
structure CreatePlan where
  /-- `self._awg.add_client_peer(...)` at line 89 raises. -/
  appendFails : Bool
  /-- `self._awg.sync_config(...)` at line 95 raises. -/
  syncFails : Bool
  /-- `self._awg.remove_client_peer(...)` inside `_rollback_awg_peer` raises
  (swallowed there, lines 236-240). -/
  rollbackRemoveFails : Bool
  /-- the MinIO uploads at lines 123-124 raise. -/
  uploadFails : Bool
  /-- `update_client_config_key(...)` at line 132 raises. -/
  updateFails : Bool
  /-- `delete_client(session, client)` (the DB delete used in rollback) raises. -/
  dbDeleteFails : Bool
  /-- the compensating `self._awg.sync_config(...)` at lines 127 / 137 raises. -/
  resyncFails : Bool
deriving DecidableEq, Repr

/-- Delete rows with the given id (SQLAlchemy `session.delete` + commit). -/
def dbDelete (db : List PeerRec) (rid : Nat) : List PeerRec :=
  db.filter (fun r => r.rid ≠ rid)

/-- Remove an artifact key from the store (`remove_object` succeeds whether or
not the key exists). -/
def minioRemove (store : List (List Char)) (key : List Char) : List (List Char) :=
  store.filter (fun k => k ≠ key)

/-- The artifact key `MinIOClient.upload_config` returns for an identifier
(`configs/{identifier}.conf`); row ids stand in for the UUIDs. -/
def minioKey (rid : Nat) (suffix : List Char) : List Char :=
  lc "configs/" ++ natToChars rid ++ suffix

/-- `ClientService._rollback_awg_peer` (lines 236-240): best-effort stanza
removal, any exception swallowed. -/
def rollback_awg_peer (st : WorldState) (plan : CreatePlan) (pub : List Char) : WorldState :=
  if plan.rollbackRemoveFails then st
  else { st with doc := remove_peer_block st.doc pub }

/-- `ClientService._ensure_server_configured` (lines 219-226). -/
def ensure_server_configured : Option SrvCfg → Except PyErr SrvCfg
  | none => Except.error PyErr.serverNotConfigured
  | some cfg =>
    if cfg.server_public_key = [] then Except.error PyErr.serverNotConfigured
    else if cfg.container_name = [] then Except.error PyErr.serverNotConfigured
    else Except.ok cfg

/-- The body of `ClientService.create_client` from the point where the next
address has been computed (client_service.py lines 75-139): generate keys
(passed in as `pub`/`priv`/`psk` — the generator is a randomness collaborator),
create the row, append the stanza, sync, publish artifacts, attach the artifact
key, with the nested rollback handlers translated branch by branch. -/
def create_client_from_ip (st : WorldState) (plan : CreatePlan)
    (client_name priv pub psk next_ip : List Char) : Except PyErr PeerRec × WorldState :=
  let _ := priv
  let client : PeerRec :=
    { rid := st.nextId, clientName := client_name, pubKey := pub, ip := next_ip,
      psk := psk, configKey := none }
  let st1 : WorldState := { st with db := st.db ++ [client], nextId := st.nextId + 1 }
  -- line 89: add_client_peer; handler at 90-92: delete row, re-raise
  if plan.appendFails then
    if plan.dbDeleteFails then (Except.error PyErr.dbError, st1)
    else (Except.error PyErr.configParseError, { st1 with db := dbDelete st1.db client.rid })
  else
    let st2 : WorldState := { st1 with doc := add_client_peer_doc st1.doc pub next_ip psk }
    -- line 95: sync_config; handler at 96-99: rollback stanza (best-effort),
    -- delete row, re-raise
    if plan.syncFails then
      let st3 := rollback_awg_peer st2 plan pub
      if plan.dbDeleteFails then (Except.error PyErr.dbError, st3)
      else (Except.error PyErr.awgServiceError, { st3 with db := dbDelete st3.db client.rid })
    else
      -- lines 101-124: render configs (pure) and upload both artifacts;
      -- handler at 125-129: rollback stanza, re-sync (NOT guarded), delete row, re-raise
      if plan.uploadFails then
        let st3 := rollback_awg_peer st2 plan pub
        if plan.resyncFails then (Except.error PyErr.awgServiceError, st3)
        else if plan.dbDeleteFails then (Except.error PyErr.dbError, st3)
        else (Except.error PyErr.minioError, { st3 with db := dbDelete st3.db client.rid })
      else
        let awgKey := minioKey client.rid (lc "_awg.conf")
        let amneziaKey := minioKey client.rid (lc "_amnezia.conf")
        let st3 : WorldState := { st2 with minio := st2.minio ++ [awgKey, amneziaKey] }
        -- line 132: update_client_config_key; handler at 133-139: delete both
        -- artifacts, rollback stanza, re-sync (NOT guarded), delete row, re-raise
        if plan.updateFails then
          let st4 : WorldState :=
            { st3 with minio := minioRemove (minioRemove st3.minio awgKey) amneziaKey }
          let st5 := rollback_awg_peer st4 plan pub
          if plan.resyncFails then (Except.error PyErr.awgServiceError, st5)
          else if plan.dbDeleteFails then (Except.error PyErr.dbError, st5)
          else (Except.error PyErr.dbError, { st5 with db := dbDelete st5.db client.rid })
        else
          let client' : PeerRec := { client with configKey := some awgKey }
          (Except.ok client',
            { st3 with db := dbDelete st3.db client.rid ++ [client'] })

/-- `ClientService.create_client` (lines 65-139): profile and endpoint checks,
read the live document's addresses, compute the next address via
`calculate_next_ip`, then the transactional body. -/
def create_client_model (st : WorldState) (plan : CreatePlan) (server : Option SrvCfg)
    (endpoint client_name priv pub psk : List Char) : Except PyErr PeerRec × WorldState :=
  match ensure_server_configured server with
  | Except.error e => (Except.error e, st)
  | Except.ok cfg =>
    if endpoint = [] then (Except.error PyErr.serverNotConfigured, st)
    else
      let existing_ips := extract_peer_ips st.doc
      match calculate_next_ip cfg.awg_subnet_ip existing_ips with
      | Except.error e => (Except.error e, st)
      | Except.ok next_ip => create_client_from_ip st plan client_name priv pub psk next_ip

/-- Fault-injection plan for one `delete_client` run. -/
structure DeletePlan where
  /-- `self._awg.remove_client_peer(...)` at line 157 raises. -/
  removeFails : Bool
  /-- `self._awg.sync_config(...)` at line 162 raises. -/
  syncFails : Bool
  /-- the MinIO delete of the `_awg` artifact at line 169 raises. -/
  minioAwgFails : Bool
  /-- the MinIO delete of the `_amnezia` artifact at line 175 raises. -/
  minioAmneziaFails : Bool
deriving DecidableEq, Repr

/-- `ClientService.delete_client` (lines 147-184): look up the row, check the
profile, attempt stanza removal, sync and artifact deletion with failures
collected, delete the row regardless, and raise a partial-failure error listing
the failed steps when any were collected. -/
def delete_client_model (st : WorldState) (plan : DeletePlan) (server : Option SrvCfg)
    (cid : Nat) : Except PyErr PeerRec × WorldState :=
  match st.db.find? (fun r => r.rid == cid) with
  | none => (Except.error PyErr.clientNotFound, st)
  | some client =>
    match ensure_server_configured server with
    | Except.error e => (Except.error e, st)
    | Except.ok _cfg =>
      let e1 : List CleanupStep := if plan.removeFails then [CleanupStep.removePeer] else []
      let st1 := if plan.removeFails then st
        else { st with doc := remove_peer_block st.doc client.pubKey }
      let e2 : List CleanupStep := if plan.syncFails then [CleanupStep.syncConfig] else []
      let hasKey := client.configKey.isSome
      let e3 : List CleanupStep :=
        if hasKey && plan.minioAwgFails then [CleanupStep.minioAwg] else []
      let st2 := if hasKey && !plan.minioAwgFails then
          { st1 with minio := minioRemove st1.minio (minioKey client.rid (lc "_awg.conf")) }
        else st1
      let e4 : List CleanupStep :=
        if hasKey && plan.minioAmneziaFails then [CleanupStep.minioAmnezia] else []
      let st3 := if hasKey && !plan.minioAmneziaFails then
          { st2 with minio := minioRemove st2.minio (minioKey client.rid (lc "_amnezia.conf")) }
        else st2
      let st4 : WorldState := { st3 with db := dbDelete st3.db cid }
      let errs := e1 ++ e2 ++ e3 ++ e4
      if errs.isEmpty then (Except.ok client, st4)
      else (Except.error (PyErr.cleanupError errs), st4)

/-! ## Auxiliary definitions used by the statements and proofs -/

/-- A separator has no non-trivial border: no proper non-empty alignment of the
separator with itself matches.  This rules out occurrences of the separator
that straddle a deliberately inserted copy of it. -/
def borderFree (sep : List Char) : Prop :=
  sep ≠ [] ∧ ∀ k < sep.length, 0 < k → sep ≠ sep.take k ++ sep.take (sep.length - k)

instance (sep : List Char) : Decidable (borderFree sep) := by
  unfold borderFree
  infer_instance

/-- The reassociated tail of the document produced by `_remove_peer_block`:
`a ++ ['\n'] ++ stanzaJoinTail ks` equals
`a ++ "\n\n" ++ "\n\n".join(ks) ++ "\n"` when `ks ≠ []`, and `a ++ "\n"` when
`ks = []`. -/
def stanzaJoinTail : List (List Char) → List Char
  | [] => []
  | k :: rest => '\n' :: (k ++ '\n' :: stanzaJoinTail rest)

/-- The maximal run of trailing whitespace of a document. -/
def trailingWs (s : List Char) : List Char :=
  (s.reverse.takeWhile isPyWs).reverse

/-- Witness instance of the `json` contract: a single-document type whose
serialization is the byte string `"n"`. -/
def unitJson : JsonModel Unit where
  dumps := fun _ => [110]
  loads := fun bs => if bs = [110] then Except.ok () else Except.error PyErr.valueError
  loads_dumps := fun _ => rfl
  dumps_bytes := by
    intro x b hb
    simp only [List.mem_singleton] at hb
    omega

/-- Witness instance of the `zlib` contract: the identity codec (a legal
lossless codec; deflate's "stored" mode behaves this way up to framing). -/
def idZlib : ZlibModel where
  compress := id
  decompress := Except.ok
  decompress_compress := fun _ => rfl
  compress_bytes := fun _ h => h

/-- The stanzas `_remove_peer_block content key` keeps, already stripped: the
document's stanzas (with their `[Peer]` head restored) that do not contain the
`PublicKey = <key>` needle, in order. -/
def keptOf (content key : List Char) : List (List Char) :=
  (((splitOnSep peerMarker content).tail.map (fun sec => lc "[Peer]" ++ sec)).filter
    (fun peer => !(containsSub (keyLine key) peer))).map pyStrip

/-- Whether the text contains a newline immediately followed by `'['` — the
only way a `"\n[Peer]"` marker can begin. -/
def hasNlBracket : List Char → Bool
  | [] => false
  | [_] => false
  | a :: b :: rest => (a = '\n' && b = '[') || hasNlBracket (b :: rest)

/-! # Theorems

## Basic facts about the string model -/

theorem lstartsWith_iff (p s : List Char) : lstartsWith p s = true ↔ ∃ t, s = p ++ t := by
  induction p generalizing s with
  | nil => simp [lstartsWith]
  | cons a as ih =>
    cases s with
    | nil =>
      simp [lstartsWith]
    | cons b bs =>
      simp only [lstartsWith, Bool.and_eq_true, decide_eq_true_eq, ih, List.cons_append,
        List.cons.injEq]
      constructor
      · rintro ⟨rfl, t, rfl⟩
        exact ⟨t, rfl, rfl⟩
      · rintro ⟨t, rfl, rfl⟩
        exact ⟨rfl, t, rfl⟩

theorem lstartsWith_self_append (p t : List Char) : lstartsWith p (p ++ t) = true :=
  (lstartsWith_iff p (p ++ t)).mpr ⟨t, rfl⟩

theorem lstartsWith_append_right (p s t : List Char) (h : lstartsWith p s = true) :
    lstartsWith p (s ++ t) = true := by
  rcases (lstartsWith_iff p s).mp h with ⟨u, rfl⟩
  rw [List.append_assoc]
  exact lstartsWith_self_append p (u ++ t)

theorem lstartsWith_nil_right (p : List Char) (h : lstartsWith p [] = true) : p = [] := by
  cases p with
  | nil => rfl
  | cons a as => simp [lstartsWith] at h

theorem lstartsWith_length_le (p s : List Char) (h : lstartsWith p s = true) :
    p.length ≤ s.length := by
  rcases (lstartsWith_iff p s).mp h with ⟨t, rfl⟩
  simp

theorem containsSub_iff (p s : List Char) :
    containsSub p s = true ↔ ∃ i, lstartsWith p (s.drop i) = true := by
  unfold containsSub
  rw [List.any_eq_true]
  constructor
  · rintro ⟨i, _, hi⟩
    exact ⟨i, hi⟩
  · rintro ⟨i, hi⟩
    by_cases hle : i ≤ s.length
    · exact ⟨i, by simp [List.mem_range]; omega, hi⟩
    · have hnil : s.drop i = [] := List.drop_eq_nil_of_le (by omega)
      rw [hnil] at hi
      have := lstartsWith_nil_right p hi
      subst this
      exact ⟨0, by simp, by simp [lstartsWith]⟩

theorem containsSub_of_occurrence (p s : List Char) (i : Nat)
    (h : lstartsWith p (s.drop i) = true) : containsSub p s = true :=
  (containsSub_iff p s).mpr ⟨i, h⟩

theorem containsSub_append_right (p s t : List Char) (h : containsSub p s = true) :
    containsSub p (s ++ t) = true := by
  rcases (containsSub_iff p s).mp h with ⟨i, hi⟩
  by_cases hle : i ≤ s.length
  · refine containsSub_of_occurrence p (s ++ t) i ?_
    rw [List.drop_append_of_le_length hle]
    exact lstartsWith_append_right _ _ _ hi
  · have hnil : s.drop i = [] := List.drop_eq_nil_of_le (by omega)
    rw [hnil] at hi
    have := lstartsWith_nil_right p hi
    subst this
    exact containsSub_of_occurrence [] (s ++ t) 0 (by simp [lstartsWith])

theorem containsSub_append_left (p s t : List Char) (h : containsSub p t = true) :
    containsSub p (s ++ t) = true := by
  rcases (containsSub_iff p t).mp h with ⟨i, hi⟩
  refine containsSub_of_occurrence p (s ++ t) (s.length + i) ?_
  rw [List.drop_append]
  exact hi

theorem containsSub_of_infix (p m u v : List Char) (h : containsSub p m = true) :
    containsSub p (u ++ m ++ v) = true := by
  rw [List.append_assoc]
  exact containsSub_append_left p u (m ++ v) (containsSub_append_right p m v h)

theorem containsSub_self (p : List Char) : containsSub p p = true :=
  containsSub_of_occurrence p p 0 (by simpa using lstartsWith_self_append p [])

/-- A substring occurrence forces every character of the needle into the haystack. -/
theorem mem_of_containsSub (p s : List Char) (c : Char) (hc : c ∈ p)
    (h : containsSub p s = true) : c ∈ s := by
  rcases (containsSub_iff p s).mp h with ⟨i, hi⟩
  rcases (lstartsWith_iff p _).mp hi with ⟨t, ht⟩
  have : c ∈ s.drop i := by
    rw [ht]
    exact List.mem_append_left t hc
  exact List.mem_of_mem_drop this

theorem containsSub_nil_of_ne (sep : List Char) (hsep : sep ≠ []) :
    containsSub sep [] = false := by
  cases sep with
  | nil => exact absurd rfl hsep
  | cons a as => simp [containsSub, lstartsWith]

theorem lstartsWith_of_append_le (p a x : List Char) (h : lstartsWith p (a ++ x) = true)
    (hle : p.length ≤ a.length) : lstartsWith p a = true := by
  rcases (lstartsWith_iff p (a ++ x)).mp h with ⟨t, ht⟩
  have hp : p = a.take p.length := by
    have := congrArg (List.take p.length) ht
    rw [List.take_append_of_le_length hle] at this
    simpa using this.symm
  refine (lstartsWith_iff p a).mpr ⟨a.drop p.length, ?_⟩
  conv_lhs => rw [← List.take_append_drop p.length a]
  rw [← hp]

theorem splitOnSepF_mono (sep : List Char) :
    ∀ n m s, s.length ≤ n → s.length ≤ m →
      splitOnSepF sep n s = splitOnSepF sep m s := by
  intro n
  induction n with
  | zero =>
    intro m s hn _
    have hnil : s = [] := List.length_eq_zero.mp (Nat.le_zero.mp hn)
    subst hnil
    cases m <;> rfl
  | succ n' ih =>
    intro m s hn hm
    cases s with
    | nil => cases m <;> rfl
    | cons c rest =>
      cases m with
      | zero => simp at hm
      | succ m' =>
        have hr : rest.length ≤ n' := by
          simp only [List.length_cons] at hn
          omega
        have hrm : rest.length ≤ m' := by
          simp only [List.length_cons] at hm
          omega
        show (if sep.length ≠ 0 ∧ lstartsWith sep (c :: rest) = true then
            [] :: splitOnSepF sep n' ((c :: rest).drop sep.length)
          else
            match splitOnSepF sep n' rest with
            | [] => [[c]]
            | p :: ps => (c :: p) :: ps)
          = (if sep.length ≠ 0 ∧ lstartsWith sep (c :: rest) = true then
            [] :: splitOnSepF sep m' ((c :: rest).drop sep.length)
          else
            match splitOnSepF sep m' rest with
            | [] => [[c]]
            | p :: ps => (c :: p) :: ps)
        by_cases h : sep.length ≠ 0 ∧ lstartsWith sep (c :: rest) = true
        · rw [if_pos h, if_pos h]
          have hd : ((c :: rest).drop sep.length).length ≤ n' := by
            rw [List.length_drop, List.length_cons]
            have h1 : sep.length ≠ 0 := h.1
            omega
          have hdm : ((c :: rest).drop sep.length).length ≤ m' := by
            rw [List.length_drop, List.length_cons]
            have h1 : sep.length ≠ 0 := h.1
            omega
          rw [ih m' _ hd hdm]
        · rw [if_neg h, if_neg h]
          rw [ih m' rest hr hrm]

theorem splitOnSep_cons_pos (sep : List Char) (c : Char) (rest : List Char)
    (h : sep.length ≠ 0 ∧ lstartsWith sep (c :: rest) = true) :
    splitOnSep sep (c :: rest) = [] :: splitOnSep sep ((c :: rest).drop sep.length) := by
  show (if sep.length ≠ 0 ∧ lstartsWith sep (c :: rest) = true then
      [] :: splitOnSepF sep rest.length ((c :: rest).drop sep.length)
    else
      match splitOnSepF sep rest.length rest with
      | [] => [[c]]
      | p :: ps => (c :: p) :: ps)
    = [] :: splitOnSep sep ((c :: rest).drop sep.length)
  rw [if_pos h]
  congr 1
  apply splitOnSepF_mono
  · rw [List.length_drop, List.length_cons]
    have h1 : sep.length ≠ 0 := h.1
    omega
  · exact Nat.le_refl _

theorem splitOnSep_cons_neg (sep : List Char) (c : Char) (rest : List Char)
    (h : ¬(sep.length ≠ 0 ∧ lstartsWith sep (c :: rest) = true)) :
    splitOnSep sep (c :: rest) =
      match splitOnSep sep rest with
      | [] => [[c]]
      | p :: ps => (c :: p) :: ps := by
  show (if sep.length ≠ 0 ∧ lstartsWith sep (c :: rest) = true then
      [] :: splitOnSepF sep rest.length ((c :: rest).drop sep.length)
    else
      match splitOnSepF sep rest.length rest with
      | [] => [[c]]
      | p :: ps => (c :: p) :: ps)
    = match splitOnSep sep rest with
      | [] => [[c]]
      | p :: ps => (c :: p) :: ps
  rw [if_neg h]
  rfl

theorem splitOnSep_ne_nil (sep s : List Char) : splitOnSep sep s ≠ [] := by
  cases s with
  | nil => simp [splitOnSep, splitOnSepF]
  | cons c rest =>
    by_cases h : sep.length ≠ 0 ∧ lstartsWith sep (c :: rest) = true
    · rw [splitOnSep_cons_pos sep c rest h]
      simp
    · rw [splitOnSep_cons_neg sep c rest h]
      cases splitOnSep sep rest <;> simp

theorem splitOnSep_head_pre (sep : List Char) :
    ∀ n s, List.length s ≤ n → ∃ t, s = (splitOnSep sep s).headD [] ++ t := by
  intro n
  induction n with
  | zero =>
    intro s hs
    have : s = [] := List.length_eq_zero.mp (Nat.le_zero.mp hs)
    subst this
    exact ⟨[], by simp [splitOnSep, splitOnSepF]⟩
  | succ n ih =>
    intro s hs
    cases s with
    | nil => exact ⟨[], by simp [splitOnSep, splitOnSepF]⟩
    | cons c rest =>
      by_cases h : sep.length ≠ 0 ∧ lstartsWith sep (c :: rest) = true
      · rw [splitOnSep_cons_pos sep c rest h]
        exact ⟨c :: rest, rfl⟩
      · rw [splitOnSep_cons_neg sep c rest h]
        rcases ih rest (by simp at hs; omega) with ⟨t, ht⟩
        cases hsp : splitOnSep sep rest with
        | nil => exact absurd hsp (splitOnSep_ne_nil sep rest)
        | cons p ps =>
          rw [hsp] at ht
          exact ⟨t, by simpa using ht⟩

theorem splitOnSep_single (sep : List Char) :
    ∀ n s, List.length s ≤ n → sep ≠ [] → containsSub sep s = false →
      splitOnSep sep s = [s] := by
  intro n
  induction n with
  | zero =>
    intro s hs _ _
    have : s = [] := List.length_eq_zero.mp (Nat.le_zero.mp hs)
    subst this
    simp [splitOnSep, splitOnSepF]
  | succ n ih =>
    intro s hs hsep hc
    cases s with
    | nil => simp [splitOnSep, splitOnSepF]
    | cons c rest =>
      have hns : ¬ lstartsWith sep (c :: rest) = true := by
        intro hw
        have : containsSub sep (c :: rest) = true :=
          containsSub_of_occurrence sep (c :: rest) 0 (by simpa using hw)
        rw [hc] at this
        exact Bool.false_ne_true this
      rw [splitOnSep_cons_neg sep c rest (fun hh => hns hh.2)]
      have hcrest : containsSub sep rest = false := by
        by_contra hbad
        have hbad' : containsSub sep rest = true := by
          cases hcc : containsSub sep rest
          · exact absurd hcc hbad
          · rfl
        rcases (containsSub_iff sep rest).mp hbad' with ⟨i, hi⟩
        have : containsSub sep (c :: rest) = true :=
          containsSub_of_occurrence sep (c :: rest) (i + 1) (by simpa using hi)
        rw [hc] at this
        exact Bool.false_ne_true this
      rw [ih rest (by simp at hs; omega) hsep hcrest]

theorem splitOnSep_single_of_clean (sep s : List Char) (hsep : sep ≠ [])
    (hc : containsSub sep s = false) : splitOnSep sep s = [s] :=
  splitOnSep_single sep s.length s (Nat.le_refl _) hsep hc

theorem splitOnSep_two_le (sep s : List Char) (hsep : sep ≠ [])
    (hc : containsSub sep s = true) : 2 ≤ (splitOnSep sep s).length := by
  induction s with
  | nil =>
    rw [containsSub_nil_of_ne sep hsep] at hc
    exact absurd hc Bool.false_ne_true
  | cons c rest ih =>
    by_cases h : lstartsWith sep (c :: rest) = true
    · rw [splitOnSep_cons_pos sep c rest ⟨fun hh => hsep (List.length_eq_zero.mp hh), h⟩]
      have := splitOnSep_ne_nil sep ((c :: rest).drop sep.length)
      cases hsp : splitOnSep sep ((c :: rest).drop sep.length) with
      | nil => exact absurd hsp this
      | cons p ps => simp
    · rw [splitOnSep_cons_neg sep c rest (fun hh => h hh.2)]
      have hcrest : containsSub sep rest = true := by
        rcases (containsSub_iff sep (c :: rest)).mp hc with ⟨i, hi⟩
        cases i with
        | zero => exact absurd (by simpa using hi) h
        | succ j => exact containsSub_of_occurrence sep rest j (by simpa using hi)
      have h2 := ih hcrest
      cases hsp : splitOnSep sep rest with
      | nil => exact absurd hsp (splitOnSep_ne_nil sep rest)
      | cons p ps =>
        rw [hsp] at h2
        simpa using h2

theorem splitOnSep_sep_append (sep b : List Char) (hsep : sep ≠ []) :
    splitOnSep sep (sep ++ b) = [] :: splitOnSep sep b := by
  cases sep with
  | nil => exact absurd rfl hsep
  | cons x xs =>
    have hcond : (x :: xs).length ≠ 0 ∧ lstartsWith (x :: xs) (x :: (xs ++ b)) = true :=
      ⟨by simp, by simpa using lstartsWith_self_append (x :: xs) b⟩
    show splitOnSep (x :: xs) (x :: (xs ++ b)) = [] :: splitOnSep (x :: xs) b
    rw [splitOnSep_cons_pos _ _ _ hcond]
    congr 1
    show splitOnSep (x :: xs) (((x :: xs) ++ b).drop (x :: xs).length) = _
    rw [List.drop_left]

/-- Splitting distributes over an inserted separator when the separator has no
non-trivial border: an occurrence can neither straddle the boundary from the
left part into the inserted separator, nor shift inside it. -/
theorem splitOnSep_append_split (sep : List Char) (hbf : borderFree sep) :
    ∀ n a, List.length a ≤ n → ∀ b,
      splitOnSep sep (a ++ (sep ++ b)) = splitOnSep sep a ++ splitOnSep sep b := by
  obtain ⟨hsep, hbord⟩ := hbf
  intro n
  induction n with
  | zero =>
    intro a ha b
    have hanil : a = [] := List.length_eq_zero.mp (Nat.le_zero.mp ha)
    subst hanil
    rw [List.nil_append, splitOnSep_sep_append sep b hsep]
    simp [splitOnSep, splitOnSepF]
  | succ n ih =>
    intro a ha b
    cases a with
    | nil =>
      rw [List.nil_append, splitOnSep_sep_append sep b hsep]
      simp [splitOnSep, splitOnSepF]
    | cons c arest =>
      have hLpos : 0 < sep.length := List.length_pos.mpr hsep
      by_cases hstart : lstartsWith sep (c :: arest) = true
      · have hle := lstartsWith_length_le sep (c :: arest) hstart
        have hfull : lstartsWith sep (c :: (arest ++ (sep ++ b))) = true := by
          have := lstartsWith_append_right sep (c :: arest) (sep ++ b) hstart
          simpa using this
        show splitOnSep sep (c :: (arest ++ (sep ++ b))) = _
        rw [splitOnSep_cons_pos sep _ _ ⟨by omega, hfull⟩]
        rw [splitOnSep_cons_pos sep c arest ⟨by omega, hstart⟩]
        have hdrop : (c :: (arest ++ (sep ++ b))).drop sep.length
            = ((c :: arest).drop sep.length) ++ (sep ++ b) := by
          show ((c :: arest) ++ (sep ++ b)).drop sep.length = _
          exact List.drop_append_of_le_length hle
        rw [hdrop]
        have hlen : ((c :: arest).drop sep.length).length ≤ n := by
          simp only [List.length_drop, List.length_cons]
          simp only [List.length_cons] at ha
          omega
        rw [ih _ hlen b]
        simp
      · have hfullneg : ¬ lstartsWith sep (c :: (arest ++ (sep ++ b))) = true := by
          intro hw
          have hw' : lstartsWith sep ((c :: arest) ++ (sep ++ b)) = true := by simpa using hw
          by_cases hcase : sep.length ≤ (c :: arest).length
          · exact hstart (lstartsWith_of_append_le sep (c :: arest) (sep ++ b) hw' hcase)
          · push_neg at hcase
            rcases (lstartsWith_iff sep _).mp hw' with ⟨t, ht⟩
            have htakem : sep.take (c :: arest).length = c :: arest := by
              have h1 := congrArg (List.take (c :: arest).length) ht
              rw [List.take_append_eq_append_take, List.take_length,
                Nat.sub_self, List.take_zero, List.append_nil] at h1
              rw [List.take_append_eq_append_take,
                Nat.sub_eq_zero_of_le (Nat.le_of_lt hcase), List.take_zero,
                List.append_nil] at h1
              exact h1.symm
            have hsepeq : sep = sep.take (c :: arest).length ++
                sep.take (sep.length - (c :: arest).length) := by
              have h2 := congrArg (List.take sep.length) ht
              rw [List.take_left] at h2
              rw [List.take_append_eq_append_take,
                List.take_of_length_le (Nat.le_of_lt hcase),
                List.take_append_eq_append_take,
                Nat.sub_eq_zero_of_le (Nat.sub_le sep.length (c :: arest).length),
                List.take_zero, List.append_nil] at h2
              rw [htakem]
              exact h2.symm
            have hmpos : 0 < (c :: arest).length := by simp
            exact hbord (c :: arest).length hcase hmpos hsepeq
        show splitOnSep sep (c :: (arest ++ (sep ++ b))) = _
        rw [splitOnSep_cons_neg sep _ _ (fun hh => hfullneg hh.2)]
        rw [splitOnSep_cons_neg sep c arest (fun hh => hstart hh.2)]
        have ihr := ih arest (by simp only [List.length_cons] at ha; omega) b
        cases hsp : splitOnSep sep arest with
        | nil => exact absurd hsp (splitOnSep_ne_nil sep arest)
        | cons p ps =>
          rw [hsp] at ihr
          rw [ihr]
          simp

theorem splitOnSep_insert (sep a b : List Char) (hbf : borderFree sep) :
    splitOnSep sep (a ++ (sep ++ b)) = splitOnSep sep a ++ splitOnSep sep b :=
  splitOnSep_append_split sep hbf a.length a (Nat.le_refl _) b

/-- No piece produced by `splitOnSep` contains the separator. -/
theorem splitOnSep_pieces_clean (sep : List Char) (hsep : sep ≠ []) :
    ∀ n s, List.length s ≤ n → ∀ x ∈ splitOnSep sep s, containsSub sep x = false := by
  intro n
  induction n with
  | zero =>
    intro s hs x hx
    have : s = [] := List.length_eq_zero.mp (Nat.le_zero.mp hs)
    subst this
    simp only [splitOnSep, splitOnSepF, List.mem_singleton] at hx
    subst hx
    exact containsSub_nil_of_ne sep hsep
  | succ n ih =>
    intro s hs x hx
    cases s with
    | nil =>
      simp only [splitOnSep, splitOnSepF, List.mem_singleton] at hx
      subst hx
      exact containsSub_nil_of_ne sep hsep
    | cons c rest =>
      have hLpos : 0 < sep.length := List.length_pos.mpr hsep
      by_cases h : lstartsWith sep (c :: rest) = true
      · rw [splitOnSep_cons_pos sep c rest ⟨by omega, h⟩] at hx
        rcases List.mem_cons.mp hx with rfl | hx2
        · exact containsSub_nil_of_ne sep hsep
        · refine ih _ ?_ x hx2
          simp only [List.length_drop, List.length_cons]
          simp only [List.length_cons] at hs
          omega
      · rw [splitOnSep_cons_neg sep c rest (fun hh => h hh.2)] at hx
        have hlen : List.length rest ≤ n := by
          simp only [List.length_cons] at hs
          omega
        cases hsp : splitOnSep sep rest with
        | nil => exact absurd hsp (splitOnSep_ne_nil sep rest)
        | cons p ps =>
          rw [hsp] at hx
          rcases List.mem_cons.mp hx with rfl | hx2
          · by_contra hbad
            have hb : containsSub sep (c :: p) = true := by
              cases hcc : containsSub sep (c :: p)
              · exact absurd hcc hbad
              · rfl
            rcases (containsSub_iff _ _).mp hb with ⟨i, hi⟩
            cases i with
            | zero =>
              rcases splitOnSep_head_pre sep rest.length rest (Nat.le_refl _) with ⟨t, htt⟩
              rw [hsp] at htt
              simp only [List.headD_cons] at htt
              have hext : lstartsWith sep ((c :: p) ++ t) = true :=
                lstartsWith_append_right sep (c :: p) t (by simpa using hi)
              rw [show (c :: p) ++ t = c :: (p ++ t) from rfl, ← htt] at hext
              exact h hext
            | succ j =>
              have hp : containsSub sep p = true :=
                containsSub_of_occurrence sep p j (by simpa using hi)
              have hpf : containsSub sep p = false :=
                ih rest hlen p (by rw [hsp]; exact List.mem_cons_self p ps)
              rw [hpf] at hp
              exact Bool.false_ne_true hp
          · exact ih rest hlen x (by rw [hsp]; exact List.mem_cons_of_mem p hx2)

theorem splitOnSep_pieces (sep s x : List Char) (hsep : sep ≠ [])
    (hx : x ∈ splitOnSep sep s) : containsSub sep x = false :=
  splitOnSep_pieces_clean sep hsep s.length s (Nat.le_refl _) x hx

/-! ## Structural facts about `pyStrip` -/

theorem dropTrailWs_cons_of_not_ws (c : Char) (t : List Char) (hc : isPyWs c = false) :
    dropTrailWs (c :: t) = c :: dropTrailWs t := by
  unfold dropTrailWs
  rw [show (c :: t) = [c] ++ t from rfl, List.reverse_append, List.dropWhile_append]
  by_cases hemp : (t.reverse.dropWhile isPyWs).isEmpty = true
  · rw [if_pos hemp]
    rw [List.isEmpty_iff] at hemp
    rw [hemp]
    simp [List.dropWhile, hc]
  · rw [if_neg hemp]
    simp

theorem dropTrailWs_pre_append (pre x : List Char) (hpre : ∀ c ∈ pre, isPyWs c = false) :
    dropTrailWs (pre ++ x) = pre ++ dropTrailWs x := by
  induction pre with
  | nil => simp
  | cons c cs ih =>
    rw [List.cons_append, dropTrailWs_cons_of_not_ws c _ (hpre c (List.mem_cons_self c cs))]
    rw [ih (fun d hd => hpre d (List.mem_cons_of_mem c hd))]
    rfl

theorem pyStrip_pre_append (pre x : List Char) (c : Char) (cs : List Char)
    (hpc : pre = c :: cs) (hpre : ∀ d ∈ pre, isPyWs d = false) :
    pyStrip (pre ++ x) = pre ++ dropTrailWs x := by
  subst hpc
  unfold pyStrip
  rw [List.cons_append, List.dropWhile_cons]
  rw [if_neg (by simp [hpre c (List.mem_cons_self c cs)])]
  rw [← List.cons_append]
  exact dropTrailWs_pre_append (c :: cs) x hpre

theorem dropTrailWs_append_ws_char (s : List Char) (c : Char) (hc : isPyWs c = true) :
    dropTrailWs (s ++ [c]) = dropTrailWs s := by
  unfold dropTrailWs
  rw [List.reverse_append]
  simp [List.dropWhile, hc]

theorem pyStrip_append_ws_char (s : List Char) (c : Char) (hc : isPyWs c = true) :
    pyStrip (s ++ [c]) = pyStrip s := by
  unfold pyStrip
  rw [List.dropWhile_append]
  by_cases hemp : (s.dropWhile isPyWs).isEmpty = true
  · rw [if_pos hemp]
    rw [List.isEmpty_iff] at hemp
    rw [hemp]
    simp [List.dropWhile, hc]
  · rw [if_neg hemp]
    exact dropTrailWs_append_ws_char _ c hc

theorem containsSub_nil_left (s : List Char) : containsSub [] s = true :=
  containsSub_of_occurrence [] s 0 rfl

theorem containsSub_of_drop (p x : List Char) (n : Nat)
    (h : containsSub p (x.drop n) = true) : containsSub p x = true := by
  rcases (containsSub_iff _ _).mp h with ⟨i, hi⟩
  rw [List.drop_drop] at hi
  exact containsSub_of_occurrence p x (n + i) hi

/-- An occurrence of `p` in `x ++ [c]` lies inside `x` unless `p` ends in `c`. -/
theorem containsSub_snoc_ne_last (p x : List Char) (c : Char)
    (hp : p ≠ []) (hlast : ∀ d, p.getLast? = some d → d ≠ c)
    (h : containsSub p (x ++ [c]) = true) : containsSub p x = true := by
  rcases (containsSub_iff _ _).mp h with ⟨i, hi⟩
  by_cases hle : i ≤ x.length
  · rw [List.drop_append_of_le_length hle] at hi
    by_cases hpl : p.length ≤ (x.drop i).length
    · exact containsSub_of_occurrence p x i (lstartsWith_of_append_le p (x.drop i) [c] hi hpl)
    · rcases (lstartsWith_iff _ _).mp hi with ⟨t, ht⟩
      have hlen := congrArg List.length ht
      simp only [List.length_append, List.length_singleton] at hlen
      have htnil : t = [] := by
        have : t.length = 0 := by omega
        exact List.length_eq_zero.mp this
      subst htnil
      rw [List.append_nil] at ht
      have : p.getLast? = some c := by
        rw [← ht]
        exact List.getLast?_concat _
      exact absurd rfl (hlast c this)
  · have hdnil : (x ++ [c]).drop i = [] := by
      apply List.drop_eq_nil_of_le
      simp only [List.length_append, List.length_singleton]
      omega
    rw [hdnil] at hi
    exact absurd (lstartsWith_nil_right p hi) hp

/-- An occurrence of `p` in `pre ++ y` lies inside `y` when `p` starts with a
character that does not occur in `pre`. -/
theorem containsSub_pre_ne_head (p pre y : List Char) (h0 : Char)
    (hph : p.head? = some h0) (hpre : h0 ∉ pre)
    (h : containsSub p (pre ++ y) = true) : containsSub p y = true := by
  rcases (containsSub_iff _ _).mp h with ⟨i, hi⟩
  by_cases hlt : i < pre.length
  · exfalso
    have hdr : (pre ++ y).drop i = pre.drop i ++ y := by
      exact List.drop_append_of_le_length (Nat.le_of_lt hlt)
    rw [hdr] at hi
    cases hpd : pre.drop i with
    | nil =>
      have := congrArg List.length hpd
      simp only [List.length_drop] at this
      simp at this
      omega
    | cons a arest =>
      rw [hpd] at hi
      cases p with
      | nil => simp at hph
      | cons q qrest =>
        have hq : q = h0 := by
          simp only [List.head?_cons, Option.some.injEq] at hph
          exact hph
        subst hq
        simp only [List.cons_append, lstartsWith, Bool.and_eq_true, decide_eq_true_eq] at hi
        have haq : a ∈ pre := by
          have : a ∈ pre.drop i := by rw [hpd]; exact List.mem_cons_self a _
          exact List.mem_of_mem_drop this
        rw [hi.1] at hpre
        exact hpre haq
  · push_neg at hlt
    have hdecomp : i = pre.length + (i - pre.length) := by omega
    rw [hdecomp, List.drop_append] at hi
    exact containsSub_of_occurrence p y (i - pre.length) hi

/-- A stripped string is an infix of the original; so occurrences transfer. -/
theorem containsSub_of_pyStrip (p s : List Char)
    (h : containsSub p (pyStrip s) = true) : containsSub p s = true := by
  have hpre : s.dropWhile isPyWs =
      pyStrip s ++ ((s.dropWhile isPyWs).reverse.takeWhile isPyWs).reverse :=
    calc s.dropWhile isPyWs
        = ((s.dropWhile isPyWs).reverse).reverse := (List.reverse_reverse _).symm
      _ = (((s.dropWhile isPyWs).reverse.takeWhile isPyWs) ++
            ((s.dropWhile isPyWs).reverse.dropWhile isPyWs)).reverse := by
          rw [List.takeWhile_append_dropWhile]
      _ = ((s.dropWhile isPyWs).reverse.dropWhile isPyWs).reverse ++
            ((s.dropWhile isPyWs).reverse.takeWhile isPyWs).reverse := by
          rw [List.reverse_append]
  have hs : s = s.takeWhile isPyWs ++
      (pyStrip s ++ ((s.dropWhile isPyWs).reverse.takeWhile isPyWs).reverse) := by
    rw [← hpre, List.takeWhile_append_dropWhile]
  calc containsSub p s
      = containsSub p (s.takeWhile isPyWs ++ (pyStrip s ++
          ((s.dropWhile isPyWs).reverse.takeWhile isPyWs).reverse)) := by rw [← hs]
    _ = true := containsSub_append_left p _ _ (containsSub_append_right p _ _ h)

/-! ## The `"\n[Peer]"` marker and the document join -/

theorem peerMarker_borderFree : borderFree peerMarker := by decide

theorem peerMarker_ne_nil : peerMarker ≠ [] := by decide

theorem peerMarker_getLast_ne_nl : ∀ d, peerMarker.getLast? = some d → d ≠ '\n' := by decide

theorem peerHead_len : (lc "[Peer]").length = 6 := by decide

/-- Appending one `'\n'` cannot create a `"\n[Peer]"` occurrence. -/
theorem containsSub_marker_snoc_nl (x : List Char)
    (h : containsSub peerMarker x = false) :
    containsSub peerMarker (x ++ ['\n']) = false := by
  cases hc : containsSub peerMarker (x ++ ['\n'])
  · rfl
  · have := containsSub_snoc_ne_last peerMarker x '\n' peerMarker_ne_nil
      peerMarker_getLast_ne_nl hc
    rw [h] at this
    exact absurd this Bool.false_ne_true

/-- The marker cannot occur inside `"[Peer]" ++ y` any earlier than inside `y`:
its leading `'\n'` does not occur in `"[Peer]"`. -/
theorem containsSub_marker_peerHead (y : List Char)
    (h : containsSub peerMarker y = false) :
    containsSub peerMarker (lc "[Peer]" ++ y) = false := by
  cases hc : containsSub peerMarker (lc "[Peer]" ++ y)
  · rfl
  · have := containsSub_pre_ne_head peerMarker (lc "[Peer]") y '\n' (by decide) (by decide) hc
    rw [h] at this
    exact absurd this Bool.false_ne_true

/-- Splitting the rejoined document: with a marker-free head and marker-free
stanzas each starting with `"[Peer]"`, the pieces come back exactly. -/
theorem splitOnSep_stanza_chain (ks : List (List Char)) :
    ∀ a, containsSub peerMarker (a ++ ['\n']) = false →
      (∀ k ∈ ks, containsSub peerMarker k = false ∧ lstartsWith (lc "[Peer]") k = true) →
      splitOnSep peerMarker (a ++ ['\n'] ++ stanzaJoinTail ks) =
        (a ++ ['\n']) :: ks.map (fun k => k.drop 6 ++ ['\n']) := by
  induction ks with
  | nil =>
    intro a ha _
    simp only [stanzaJoinTail, List.append_nil, List.map_nil]
    rw [splitOnSep_single_of_clean peerMarker (a ++ ['\n']) peerMarker_ne_nil ha]
  | cons k kt ih =>
    intro a ha hks
    obtain ⟨hk, hkstart⟩ := hks k (List.mem_cons_self k kt)
    rcases (lstartsWith_iff _ _).mp hkstart with ⟨krest, hkeq⟩
    have hkdrop : k.drop 6 = krest := by
      rw [hkeq, ← peerHead_len, List.drop_left]
    have hshape : a ++ ['\n'] ++ stanzaJoinTail (k :: kt)
        = (a ++ ['\n']) ++ (peerMarker ++ (krest ++ (['\n'] ++ stanzaJoinTail kt))) := by
      show a ++ ['\n'] ++ stanzaJoinTail (k :: kt)
        = (a ++ ['\n']) ++ (('\n' :: lc "[Peer]") ++ (krest ++ (['\n'] ++ stanzaJoinTail kt)))
      simp only [stanzaJoinTail, hkeq]
      simp [List.append_assoc]
    rw [hshape, splitOnSep_insert peerMarker (a ++ ['\n']) _ peerMarker_borderFree]
    rw [splitOnSep_single_of_clean peerMarker (a ++ ['\n']) peerMarker_ne_nil ha]
    have hkrest_clean : containsSub peerMarker (krest ++ ['\n']) = false := by
      apply containsSub_marker_snoc_nl
      cases hc : containsSub peerMarker krest
      · rfl
      · have : containsSub peerMarker (lc "[Peer]" ++ krest) = true :=
          containsSub_append_left peerMarker _ _ hc
        rw [← hkeq, hk] at this
        exact absurd this Bool.false_ne_true
    have hrest := ih krest hkrest_clean (fun k2 hk2 => hks k2 (List.mem_cons_of_mem k hk2))
    rw [show krest ++ (['\n'] ++ stanzaJoinTail kt) = krest ++ ['\n'] ++ stanzaJoinTail kt by
      simp [List.append_assoc]]
    rw [hrest]
    simp only [List.map_cons, hkdrop]
    rfl

theorem head_dropWhile_not_ws (s : List Char) (c : Char)
    (h : (s.dropWhile isPyWs).head? = some c) : isPyWs c = false := by
  induction s with
  | nil => simp [List.dropWhile] at h
  | cons a t ih =>
    rw [List.dropWhile_cons] at h
    by_cases ha : isPyWs a = true
    · rw [if_pos (by simp [ha])] at h
      exact ih h
    · rw [if_neg (by simp [Bool.not_eq_true] at ha; simp [ha])] at h
      simp only [List.head?_cons, Option.some.injEq] at h
      subst h
      simp [Bool.not_eq_true] at ha
      exact ha

theorem dropTrailWs_decomp (x : List Char) :
    x = dropTrailWs x ++ (x.reverse.takeWhile isPyWs).reverse :=
  calc x = (x.reverse).reverse := (List.reverse_reverse _).symm
    _ = ((x.reverse.takeWhile isPyWs) ++ (x.reverse.dropWhile isPyWs)).reverse := by
        rw [List.takeWhile_append_dropWhile]
    _ = dropTrailWs x ++ (x.reverse.takeWhile isPyWs).reverse := by
        rw [List.reverse_append]
        rfl

theorem containsSub_of_dropTrailWs (p x : List Char)
    (h : containsSub p (dropTrailWs x) = true) : containsSub p x = true := by
  have := containsSub_append_right p (dropTrailWs x) ((x.reverse.takeWhile isPyWs).reverse) h
  rw [← dropTrailWs_decomp x] at this
  exact this

theorem head?_append_ne (A B : List Char) (hA : A ≠ []) : (A ++ B).head? = A.head? := by
  cases A with
  | nil => exact absurd rfl hA
  | cons a t => rfl

theorem getLast?_append_ne (A B : List Char) (hB : B ≠ []) :
    (A ++ B).getLast? = B.getLast? := by
  rw [← List.head?_reverse, ← List.head?_reverse, List.reverse_append]
  exact head?_append_ne B.reverse A.reverse (by simpa using hB)

theorem pyStrip_head_not_ws (s : List Char) (c : Char)
    (h : (pyStrip s).head? = some c) : isPyWs c = false := by
  unfold pyStrip at h
  have hd := dropTrailWs_decomp (s.dropWhile isPyWs)
  apply head_dropWhile_not_ws s c
  rw [hd, head?_append_ne _ _ ?hne]
  · exact h
  case hne =>
    intro hnil
    rw [hnil] at h
    simp at h

theorem pyStrip_getLast_not_ws (s : List Char) (c : Char)
    (h : (pyStrip s).getLast? = some c) : isPyWs c = false := by
  unfold pyStrip dropTrailWs at h
  rw [List.getLast?_reverse] at h
  exact head_dropWhile_not_ws (s.dropWhile isPyWs).reverse c h

theorem pyStrip_eq_self (s : List Char)
    (h1 : ∀ c, s.head? = some c → isPyWs c = false)
    (h2 : ∀ c, s.getLast? = some c → isPyWs c = false) : pyStrip s = s := by
  cases s with
  | nil => rfl
  | cons a t =>
    unfold pyStrip
    rw [List.dropWhile_cons, if_neg (by simp [h1 a rfl])]
    unfold dropTrailWs
    cases hr : (a :: t).reverse with
    | nil => simp at hr
    | cons b rb =>
      have hb : (a :: t).getLast? = some b := by
        rw [← List.head?_reverse, hr]
        rfl
      rw [List.dropWhile_cons, if_neg (by simp [h2 b hb])]
      rw [← hr, List.reverse_reverse]

theorem pyStrip_idem (s : List Char) : pyStrip (pyStrip s) = pyStrip s :=
  pyStrip_eq_self (pyStrip s) (pyStrip_head_not_ws s) (pyStrip_getLast_not_ws s)

theorem joinSep_cons_ne (sep : List Char) (k : List Char) (ks : List (List Char))
    (hk : k ≠ []) : joinSep sep (k :: ks) ≠ [] := by
  cases ks with
  | nil => exact hk
  | cons k2 kt =>
    show k ++ sep ++ joinSep sep (k2 :: kt) ≠ []
    simp [hk]

theorem joinSep_getLast_not_ws (sep : List Char) (ks : List (List Char))
    (hks : ∀ x ∈ ks, pyStrip x = x ∧ x ≠ []) (hne : ks ≠ []) :
    ∀ c, (joinSep sep ks).getLast? = some c → isPyWs c = false := by
  induction ks with
  | nil => exact absurd rfl hne
  | cons k kt ih =>
    intro c hc
    obtain ⟨hstrip, hknil⟩ := hks k (List.mem_cons_self k kt)
    cases kt with
    | nil =>
      show isPyWs c = false
      apply pyStrip_getLast_not_ws k c
      rw [hstrip]
      exact hc
    | cons k2 kt2 =>
      have hjoin : joinSep sep (k :: k2 :: kt2) = k ++ sep ++ joinSep sep (k2 :: kt2) := rfl
      rw [hjoin, getLast?_append_ne _ _ (joinSep_cons_ne sep k2 kt2
        (hks k2 (by simp)).2)] at hc
      exact ih (fun x hx => hks x (List.mem_cons_of_mem k hx)) (by simp) c hc

/-- Reassociation of the blank-line join: `"\n\n" + join + "\n"` is `"\n"`
followed by the stanza tail. -/
theorem nlnl_joinSep_eq (ks : List (List Char)) (hne : ks ≠ []) :
    lc "\n\n" ++ joinSep (lc "\n\n") ks ++ ['\n'] = ['\n'] ++ stanzaJoinTail ks := by
  induction ks with
  | nil => exact absurd rfl hne
  | cons k kt ih =>
    cases kt with
    | nil => simp [joinSep, stanzaJoinTail, lc]
    | cons k2 kt2 =>
      have hjoin : joinSep (lc "\n\n") (k :: k2 :: kt2)
          = k ++ lc "\n\n" ++ joinSep (lc "\n\n") (k2 :: kt2) := rfl
      rw [hjoin]
      have ih2 := ih (by simp)
      show lc "\n\n" ++ (k ++ lc "\n\n" ++ joinSep (lc "\n\n") (k2 :: kt2)) ++ ['\n']
          = ['\n'] ++ ('\n' :: (k ++ '\n' :: stanzaJoinTail (k2 :: kt2)))
      have : lc "\n\n" ++ joinSep (lc "\n\n") (k2 :: kt2) ++ ['\n']
          = ['\n'] ++ stanzaJoinTail (k2 :: kt2) := ih2
      calc lc "\n\n" ++ (k ++ lc "\n\n" ++ joinSep (lc "\n\n") (k2 :: kt2)) ++ ['\n']
          = lc "\n\n" ++ k ++ (lc "\n\n" ++ joinSep (lc "\n\n") (k2 :: kt2) ++ ['\n']) := by
            simp [List.append_assoc]
        _ = lc "\n\n" ++ k ++ (['\n'] ++ stanzaJoinTail (k2 :: kt2)) := by rw [this]
        _ = ['\n'] ++ ('\n' :: (k ++ '\n' :: stanzaJoinTail (k2 :: kt2))) := by
            simp [lc, List.append_assoc]

theorem pyStrip_cons_ws (c : Char) (x : List Char) (hc : isPyWs c = true) :
    pyStrip (c :: x) = pyStrip x := by
  unfold pyStrip
  rw [List.dropWhile_cons, if_pos (by simp [hc])]

theorem keptOf_shape (content key : List Char) :
    ∀ k ∈ keptOf content key,
      pyStrip k = k ∧ lstartsWith (lc "[Peer]") k = true ∧ k ≠ [] ∧
      containsSub peerMarker k = false ∧ containsSub (keyLine key) k = false := by
  intro k hk
  unfold keptOf at hk
  rcases List.mem_map.mp hk with ⟨peer, hpeerin, rfl⟩
  rcases List.mem_filter.mp hpeerin with ⟨hpeermem, hfilt⟩
  rcases List.mem_map.mp hpeermem with ⟨sec, hsecin, rfl⟩
  have hsec_clean : containsSub peerMarker sec = false :=
    splitOnSep_pieces peerMarker content sec peerMarker_ne_nil (List.mem_of_mem_tail hsecin)
  have hps : pyStrip (lc "[Peer]" ++ sec) = lc "[Peer]" ++ dropTrailWs sec :=
    pyStrip_pre_append (lc "[Peer]") sec '[' (lc "Peer]") (by decide) (by decide)
  refine ⟨pyStrip_idem _, ?_, ?_, ?_, ?_⟩
  · rw [hps]
    exact lstartsWith_self_append _ _
  · rw [hps]
    simp [lc]
  · rw [hps]
    apply containsSub_marker_peerHead
    cases hdt : containsSub peerMarker (dropTrailWs sec)
    · rfl
    · have := containsSub_of_dropTrailWs peerMarker sec hdt
      rw [hsec_clean] at this
      exact absurd this Bool.false_ne_true
  · have hfilt2 : containsSub (keyLine key) (lc "[Peer]" ++ sec) = false := by
      simpa [keyLine] using hfilt
    cases hkc : containsSub (keyLine key) (pyStrip (lc "[Peer]" ++ sec))
    · rfl
    · have := containsSub_of_pyStrip (keyLine key) (lc "[Peer]" ++ sec) hkc
      rw [hfilt2] at this
      exact absurd this Bool.false_ne_true

theorem remove_peer_block_eq_of_marker (content key : List Char)
    (hmark : containsSub peerMarker content = true) :
    remove_peer_block content key =
      pyStrip (if (keptOf content key).isEmpty then headerOf content
        else headerOf content ++ lc "\n\n" ++ joinSep (lc "\n\n") (keptOf content key))
        ++ ['\n'] := by
  have hlen := splitOnSep_two_le peerMarker content peerMarker_ne_nil hmark
  unfold remove_peer_block keptOf headerOf
  rw [if_neg (by omega)]
  rfl

/-- The first section of a document is marker-free, and so is its strip with a
newline appended. -/
theorem headerOf_clean_nl (content : List Char) :
    containsSub peerMarker (headerOf content ++ ['\n']) = false := by
  apply containsSub_marker_snoc_nl
  unfold headerOf
  have hmem : (splitOnSep peerMarker content).headD [] ∈ splitOnSep peerMarker content := by
    cases hsp : splitOnSep peerMarker content with
    | nil => exact absurd hsp (splitOnSep_ne_nil peerMarker content)
    | cons p ps => exact List.mem_cons_self p ps
  have hclean := splitOnSep_pieces peerMarker content _ peerMarker_ne_nil hmem
  cases hc : containsSub peerMarker (pyStrip ((splitOnSep peerMarker content).headD []))
  · rfl
  · have := containsSub_of_pyStrip peerMarker _ hc
    rw [hclean] at this
    exact absurd this Bool.false_ne_true

theorem headerOf_stripped (content : List Char) : pyStrip (headerOf content) = headerOf content :=
  pyStrip_idem _

theorem joinSep_snoc_nl (k0 : List Char) (kt : List (List Char)) :
    joinSep (lc "\n\n") (k0 :: kt) ++ ['\n'] = k0 ++ ['\n'] ++ stanzaJoinTail kt := by
  cases kt with
  | nil => simp [joinSep, stanzaJoinTail]
  | cons k2 kt2 =>
    show (k0 ++ lc "\n\n" ++ joinSep (lc "\n\n") (k2 :: kt2)) ++ ['\n'] = _
    calc (k0 ++ lc "\n\n" ++ joinSep (lc "\n\n") (k2 :: kt2)) ++ ['\n']
        = k0 ++ (lc "\n\n" ++ joinSep (lc "\n\n") (k2 :: kt2) ++ ['\n']) := by
          simp [List.append_assoc]
      _ = k0 ++ (['\n'] ++ stanzaJoinTail (k2 :: kt2)) := by
          rw [nlnl_joinSep_eq (k2 :: kt2) (by simp)]
      _ = k0 ++ ['\n'] ++ stanzaJoinTail (k2 :: kt2) := by simp [List.append_assoc]

theorem remove_peer_block_no_marker (content key : List Char)
    (h : containsSub peerMarker content = false) :
    remove_peer_block content key = content := by
  unfold remove_peer_block
  rw [splitOnSep_single_of_clean peerMarker content peerMarker_ne_nil h]
  simp

theorem remove_peer_block_split_empty (content key : List Char)
    (hmark : containsSub peerMarker content = true) (hkept : keptOf content key = []) :
    remove_peer_block content key = headerOf content ++ ['\n'] ∧
    splitOnSep peerMarker (remove_peer_block content key) = [headerOf content ++ ['\n']] := by
  have heq := remove_peer_block_eq_of_marker content key hmark
  rw [hkept] at heq
  have htriv : (([] : List (List Char)).isEmpty = true) := rfl
  rw [if_pos htriv, headerOf_stripped] at heq
  refine ⟨heq, ?_⟩
  rw [heq]
  exact splitOnSep_single_of_clean peerMarker _ peerMarker_ne_nil (headerOf_clean_nl content)

theorem remove_peer_block_split_hdr (content key : List Char)
    (hmark : containsSub peerMarker content = true) (k0 : List Char) (kt : List (List Char))
    (hkept : keptOf content key = k0 :: kt) (hhdr : headerOf content ≠ []) :
    remove_peer_block content key
      = headerOf content ++ ['\n'] ++ stanzaJoinTail (keptOf content key) ∧
    splitOnSep peerMarker (remove_peer_block content key) =
      (headerOf content ++ ['\n']) :: (keptOf content key).map (fun k => k.drop 6 ++ ['\n']) := by
  have hp := keptOf_shape content key
  have hmem0 : k0 ∈ keptOf content key := by rw [hkept]; exact List.mem_cons_self _ _
  have hne0 : k0 ≠ [] := (hp k0 hmem0).2.2.1
  have heq := remove_peer_block_eq_of_marker content key hmark
  rw [hkept] at heq
  rw [if_neg (by simp)] at heq
  have hhead : ∀ c,
      (headerOf content ++ lc "\n\n" ++ joinSep (lc "\n\n") (k0 :: kt)).head? = some c →
      isPyWs c = false := by
    intro c hc
    rw [head?_append_ne _ _ (by simp [hhdr]), head?_append_ne _ _ hhdr] at hc
    exact pyStrip_head_not_ws ((splitOnSep peerMarker content).headD []) c hc
  have hlast : ∀ c,
      (headerOf content ++ lc "\n\n" ++ joinSep (lc "\n\n") (k0 :: kt)).getLast? = some c →
      isPyWs c = false := by
    intro c hc
    rw [getLast?_append_ne _ _ (joinSep_cons_ne _ k0 kt hne0)] at hc
    refine joinSep_getLast_not_ws (lc "\n\n") (k0 :: kt) ?_ (by simp) c hc
    intro x hx
    have := hp x (by rw [hkept]; exact hx)
    exact ⟨this.1, this.2.2.1⟩
  rw [pyStrip_eq_self _ hhead hlast] at heq
  have hshape : (headerOf content ++ lc "\n\n" ++ joinSep (lc "\n\n") (k0 :: kt)) ++ ['\n']
      = headerOf content ++ ['\n'] ++ stanzaJoinTail (k0 :: kt) := by
    calc (headerOf content ++ lc "\n\n" ++ joinSep (lc "\n\n") (k0 :: kt)) ++ ['\n']
        = headerOf content ++ (lc "\n\n" ++ joinSep (lc "\n\n") (k0 :: kt) ++ ['\n']) := by
          simp [List.append_assoc]
      _ = headerOf content ++ (['\n'] ++ stanzaJoinTail (k0 :: kt)) := by
          rw [nlnl_joinSep_eq _ (by simp)]
      _ = headerOf content ++ ['\n'] ++ stanzaJoinTail (k0 :: kt) := by
          simp [List.append_assoc]
  rw [hshape] at heq
  constructor
  · rw [hkept]
    exact heq
  · rw [heq, hkept]
    refine splitOnSep_stanza_chain (k0 :: kt) (headerOf content) (headerOf_clean_nl content) ?_
    intro k hk
    have := hp k (by rw [hkept]; exact hk)
    exact ⟨this.2.2.2.1, this.2.1⟩

theorem remove_peer_block_split_nohdr (content key : List Char)
    (hmark : containsSub peerMarker content = true) (k0 : List Char) (kt : List (List Char))
    (hkept : keptOf content key = k0 :: kt) (hhdr : headerOf content = []) :
    remove_peer_block content key = k0 ++ ['\n'] ++ stanzaJoinTail kt ∧
    splitOnSep peerMarker (remove_peer_block content key) =
      (k0 ++ ['\n']) :: kt.map (fun k => k.drop 6 ++ ['\n']) := by
  have hp := keptOf_shape content key
  have hmem0 : k0 ∈ keptOf content key := by rw [hkept]; exact List.mem_cons_self _ _
  obtain ⟨hstrip0, hstart0, hne0, hnomark0, -⟩ := hp k0 hmem0
  have heq := remove_peer_block_eq_of_marker content key hmark
  rw [hkept, hhdr] at heq
  rw [if_neg (by simp)] at heq
  simp only [List.nil_append] at heq
  have hlc : lc "\n\n" ++ joinSep (lc "\n\n") (k0 :: kt)
      = '\n' :: ('\n' :: joinSep (lc "\n\n") (k0 :: kt)) := rfl
  rw [hlc, pyStrip_cons_ws _ _ (by decide), pyStrip_cons_ws _ _ (by decide)] at heq
  have hjoinhead : ∀ c, (joinSep (lc "\n\n") (k0 :: kt)).head? = some c → isPyWs c = false := by
    intro c hc
    cases kt with
    | nil =>
      apply pyStrip_head_not_ws k0 c
      rw [hstrip0]
      exact hc
    | cons k2 kt2 =>
      have hj : joinSep (lc "\n\n") (k0 :: k2 :: kt2)
          = k0 ++ lc "\n\n" ++ joinSep (lc "\n\n") (k2 :: kt2) := rfl
      rw [hj, head?_append_ne _ _ (by simp [hne0]), head?_append_ne _ _ hne0] at hc
      apply pyStrip_head_not_ws k0 c
      rw [hstrip0]
      exact hc
  have hjoinlast : ∀ c, (joinSep (lc "\n\n") (k0 :: kt)).getLast? = some c →
      isPyWs c = false := by
    refine joinSep_getLast_not_ws (lc "\n\n") (k0 :: kt) ?_ (by simp)
    intro x hx
    have := hp x (by rw [hkept]; exact hx)
    exact ⟨this.1, this.2.2.1⟩
  rw [pyStrip_eq_self _ hjoinhead hjoinlast] at heq
  rw [joinSep_snoc_nl k0 kt] at heq
  refine ⟨heq, ?_⟩
  rw [heq]
  refine splitOnSep_stanza_chain kt k0 (containsSub_marker_snoc_nl k0 hnomark0) ?_
  intro k hk
  have := hp k (by rw [hkept]; exact List.mem_cons_of_mem k0 hk)
  exact ⟨this.2.2.2.1, this.2.1⟩

/-- Re-parsing one kept stanza piece gives the stanza back. -/
theorem kept_restanza (k : List Char) (hstart : lstartsWith (lc "[Peer]") k = true)
    (hstrip : pyStrip k = k) :
    pyStrip (lc "[Peer]" ++ (k.drop 6 ++ ['\n'])) = k := by
  rcases (lstartsWith_iff _ _).mp hstart with ⟨w, rfl⟩
  have hdrop : (lc "[Peer]" ++ w).drop 6 = w := by
    rw [← peerHead_len, List.drop_left]
  rw [hdrop]
  rw [show lc "[Peer]" ++ (w ++ ['\n']) = (lc "[Peer]" ++ w) ++ ['\n'] by simp [List.append_assoc]]
  rw [pyStrip_append_ws_char _ '\n' (by decide)]
  exact hstrip

theorem headerOf_remove_of_hdr (content key : List Char)
    (hmark : containsSub peerMarker content = true) (hhdr : headerOf content ≠ []) :
    headerOf (remove_peer_block content key) = headerOf content := by
  cases hkept : keptOf content key with
  | nil =>
    have hsp := (remove_peer_block_split_empty content key hmark hkept).2
    unfold headerOf
    rw [hsp]
    show pyStrip (headerOf content ++ ['\n']) = headerOf content
    rw [pyStrip_append_ws_char _ '\n' (by decide)]
    exact headerOf_stripped content
  | cons k0 kt =>
    have hsp := (remove_peer_block_split_hdr content key hmark k0 kt hkept hhdr).2
    unfold headerOf
    rw [hsp]
    show pyStrip (headerOf content ++ ['\n']) = headerOf content
    rw [pyStrip_append_ws_char _ '\n' (by decide)]
    exact headerOf_stripped content

theorem stanzasOf_remove_of_hdr (content key : List Char)
    (hmark : containsSub peerMarker content = true) (hhdr : headerOf content ≠ []) :
    stanzasOf (remove_peer_block content key) = keptOf content key := by
  cases hkept : keptOf content key with
  | nil =>
    have hsp := (remove_peer_block_split_empty content key hmark hkept).2
    unfold stanzasOf
    rw [hsp]
    rfl
  | cons k0 kt =>
    have hsp := (remove_peer_block_split_hdr content key hmark k0 kt hkept hhdr).2
    unfold stanzasOf
    rw [hsp, ← hkept]
    simp only [List.tail_cons, List.map_map]
    have hcongr : List.map ((fun sec => pyStrip (lc "[Peer]" ++ sec)) ∘
        (fun k => k.drop 6 ++ ['\n'])) (keptOf content key)
        = List.map id (keptOf content key) := by
      apply List.map_congr_left
      intro k hk
      have hkp := keptOf_shape content key k hk
      exact kept_restanza k hkp.2.1 hkp.1
    rw [hcongr, List.map_id]

/-- After `_remove_peer_block content key`, no stanza of the document contains
the `PublicKey = <key>` needle (unconditionally). -/
theorem stanzasOf_remove_key_free (content key : List Char) :
    ∀ st ∈ stanzasOf (remove_peer_block content key),
      containsSub (keyLine key) st = false := by
  intro st hst
  by_cases hmark : containsSub peerMarker content = true
  · have hsub : st ∈ keptOf content key := by
      cases hkept : keptOf content key with
      | nil =>
        have hsp := (remove_peer_block_split_empty content key hmark hkept).2
        unfold stanzasOf at hst
        rw [hsp] at hst
        simp at hst
      | cons k0 kt =>
        by_cases hhdr : headerOf content = []
        · have hsp := (remove_peer_block_split_nohdr content key hmark k0 kt hkept hhdr).2
          unfold stanzasOf at hst
          rw [hsp] at hst
          simp only [List.tail_cons, List.map_map] at hst
          rcases List.mem_map.mp hst with ⟨k, hkmem, rfl⟩
          have hkk : k ∈ keptOf content key := by
            rw [hkept]
            exact List.mem_cons_of_mem k0 hkmem
          have hprops := keptOf_shape content key k hkk
          have helem : ((fun sec => pyStrip (lc "[Peer]" ++ sec)) ∘
              (fun k => k.drop 6 ++ ['\n'])) k = k :=
            kept_restanza k hprops.2.1 hprops.1
          rw [helem]
          exact List.mem_cons_of_mem k0 hkmem
        · have hst2 := hst
          rw [stanzasOf_remove_of_hdr content key hmark hhdr] at hst2
          rw [hkept] at hst2
          exact hst2
    exact (keptOf_shape content key st hsub).2.2.2.2
  · have hnm : containsSub peerMarker content = false := by
      cases h : containsSub peerMarker content
      · rfl
      · exact absurd h hmark
    rw [remove_peer_block_no_marker content key hnm] at hst
    unfold stanzasOf at hst
    rw [splitOnSep_single_of_clean _ _ peerMarker_ne_nil hnm] at hst
    simp at hst

/-! ## Whitespace-extension and adjacency lemmas -/

theorem pyStrip_append_all_ws (w : List Char) :
    ∀ x, (∀ c ∈ w, isPyWs c = true) → pyStrip (x ++ w) = pyStrip x := by
  induction w with
  | nil => intro x _; simp
  | cons c w' ih =>
    intro x hw
    rw [show x ++ (c :: w') = (x ++ [c]) ++ w' by simp]
    rw [ih (x ++ [c]) (fun d hd => hw d (List.mem_cons_of_mem c hd))]
    exact pyStrip_append_ws_char x c (hw c (List.mem_cons_self c w'))

theorem containsSub_all_ws (w : List Char) (hw : ∀ c ∈ w, isPyWs c = true) :
    containsSub peerMarker w = false := by
  cases hc : containsSub peerMarker w
  · rfl
  · have : '[' ∈ w := mem_of_containsSub peerMarker w '[' (by decide) hc
    have := hw '[' this
    simp [isPyWs] at this

theorem peerMarker_drop_head_not_ws :
    ∀ m < 7, 0 < m → ((peerMarker.drop m).head?.all (fun c => !isPyWs c)) = true := by
  decide

/-- Extending by trailing whitespace only extends the final piece of the split. -/
theorem splitOnSep_ws_ext :
    ∀ n A, List.length A ≤ n → ∀ w, (∀ c ∈ w, isPyWs c = true) →
      ∃ init last, splitOnSep peerMarker A = init ++ [last] ∧
        splitOnSep peerMarker (A ++ w) = init ++ [last ++ w] := by
  intro n
  induction n with
  | zero =>
    intro A hA w hw
    have hnil : A = [] := List.length_eq_zero.mp (Nat.le_zero.mp hA)
    subst hnil
    refine ⟨[], [], by simp [splitOnSep, splitOnSepF], ?_⟩
    rw [List.nil_append]
    rw [splitOnSep_single_of_clean peerMarker w peerMarker_ne_nil (containsSub_all_ws w hw)]
    simp
  | succ n ih =>
    intro A hA w hw
    cases A with
    | nil =>
      refine ⟨[], [], by simp [splitOnSep, splitOnSepF], ?_⟩
      rw [List.nil_append]
      rw [splitOnSep_single_of_clean peerMarker w peerMarker_ne_nil (containsSub_all_ws w hw)]
      simp
    | cons c A' =>
      have hm7 : peerMarker.length = 7 := by decide
      by_cases hstart : lstartsWith peerMarker (c :: A') = true
      · have hle := lstartsWith_length_le peerMarker (c :: A') hstart
        have hstart2 : lstartsWith peerMarker (c :: (A' ++ w)) = true := by
          have := lstartsWith_append_right peerMarker (c :: A') w hstart
          simpa using this
        rw [splitOnSep_cons_pos peerMarker c A' ⟨by omega, hstart⟩]
        rw [show (c :: A') ++ w = c :: (A' ++ w) from rfl,
          splitOnSep_cons_pos peerMarker c (A' ++ w) ⟨by omega, hstart2⟩]
        have hdrop : (c :: (A' ++ w)).drop peerMarker.length
            = ((c :: A').drop peerMarker.length) ++ w := by
          show ((c :: A') ++ w).drop peerMarker.length = _
          exact List.drop_append_of_le_length hle
        rw [hdrop]
        have hlen : ((c :: A').drop peerMarker.length).length ≤ n := by
          simp only [List.length_drop, List.length_cons]
          simp only [List.length_cons] at hA
          omega
        rcases ih _ hlen w hw with ⟨init', last', h1, h2⟩
        exact ⟨[] :: init', last', by rw [h1]; rfl, by rw [h2]; rfl⟩
      · have hstartw : ¬ lstartsWith peerMarker ((c :: A') ++ w) = true := by
          intro hbad
          by_cases hcase : peerMarker.length ≤ (c :: A').length
          · exact hstart (lstartsWith_of_append_le peerMarker (c :: A') w hbad hcase)
          · push_neg at hcase
            rcases (lstartsWith_iff _ _).mp hbad with ⟨t, ht⟩
            have hwdecomp : w = peerMarker.drop (c :: A').length ++ t := by
              have := congrArg (List.drop (c :: A').length) ht
              rw [List.drop_left] at this
              rw [this, List.drop_append_eq_append_drop,
                Nat.sub_eq_zero_of_le (Nat.le_of_lt hcase), List.drop_zero]
            have hdropne : peerMarker.drop (c :: A').length ≠ [] := by
              intro hdn
              have hlc := congrArg List.length hdn
              simp only [List.length_drop, hm7, List.length_nil] at hlc
              rw [hm7] at hcase
              omega
            cases hpd : peerMarker.drop (c :: A').length with
            | nil => exact hdropne hpd
            | cons h0 hrest =>
              have hh0w : h0 ∈ w := by
                rw [hwdecomp, hpd]
                exact List.mem_cons_self h0 _
              have hws := hw h0 hh0w
              have hnws := peerMarker_drop_head_not_ws (c :: A').length
                (by rw [← hm7]; exact hcase) (by simp)
              rw [hpd] at hnws
              simp only [List.head?_cons, Option.all_some] at hnws
              rw [hws] at hnws
              simp at hnws
        rw [splitOnSep_cons_neg peerMarker c A' (fun hh => hstart hh.2)]
        rw [show (c :: A') ++ w = c :: (A' ++ w) from rfl,
          splitOnSep_cons_neg peerMarker c (A' ++ w) (fun hh => hstartw (by simpa using hh.2))]
        have hlen : List.length A' ≤ n := by
          simp only [List.length_cons] at hA
          omega
        rcases ih A' hlen w hw with ⟨init', last', h1, h2⟩
        cases init' with
        | nil =>
          simp only [List.nil_append] at h1 h2
          rw [h1, h2]
          exact ⟨[], c :: last', rfl, rfl⟩
        | cons i0 irest =>
          rw [h1, h2]
          simp only [List.cons_append]
          exact ⟨(c :: i0) :: irest, last', rfl, rfl⟩

theorem headerOf_append_ws (A w : List Char) (hw : ∀ c ∈ w, isPyWs c = true) :
    headerOf (A ++ w) = headerOf A := by
  rcases splitOnSep_ws_ext A.length A (Nat.le_refl _) w hw with ⟨init, last, h1, h2⟩
  unfold headerOf
  rw [h1, h2]
  cases init with
  | nil => simpa using pyStrip_append_all_ws w last hw
  | cons i0 irest => rfl

theorem stanzasOf_append_ws (A w : List Char) (hw : ∀ c ∈ w, isPyWs c = true) :
    stanzasOf (A ++ w) = stanzasOf A := by
  rcases splitOnSep_ws_ext A.length A (Nat.le_refl _) w hw with ⟨init, last, h1, h2⟩
  unfold stanzasOf
  rw [h1, h2]
  cases init with
  | nil => rfl
  | cons i0 irest =>
    simp only [List.cons_append, List.tail_cons, List.map_append, List.map_cons]
    congr 1
    simp only [List.map_cons, List.map_nil]
    congr 1
    rw [show lc "[Peer]" ++ (last ++ w) = (lc "[Peer]" ++ last) ++ w by simp [List.append_assoc]]
    exact pyStrip_append_all_ws w _ hw

theorem hasNlBracket_cons (c : Char) (t : List Char) (h : hasNlBracket t = true) :
    hasNlBracket (c :: t) = true := by
  cases t with
  | nil => simp [hasNlBracket] at h
  | cons b rest =>
    show ((c = '\n' && b = '[') || hasNlBracket (b :: rest)) = true
    rw [h]
    simp

theorem hasNlBracket_drop (i : Nat) :
    ∀ s, hasNlBracket (List.drop i s) = true → hasNlBracket s = true := by
  induction i with
  | zero => intro s h; simpa using h
  | succ j ih =>
    intro s h
    cases s with
    | nil => simpa using h
    | cons c s' =>
      rw [List.drop_succ_cons] at h
      exact hasNlBracket_cons c s' (ih s' h)

theorem hasNlBracket_of_marker (s : List Char) (h : containsSub peerMarker s = true) :
    hasNlBracket s = true := by
  rcases (containsSub_iff _ _).mp h with ⟨i, hi⟩
  rcases (lstartsWith_iff _ _).mp hi with ⟨t, ht⟩
  apply hasNlBracket_drop i s
  rw [ht]
  show hasNlBracket (('\n' :: ('[' :: lc "Peer]")) ++ t) = true
  show (('\n' = '\n' && '[' = '[') || hasNlBracket ('[' :: (lc "Peer]" ++ t))) = true
  simp

theorem no_marker_of_no_nlbracket (s : List Char) (h : hasNlBracket s = false) :
    containsSub peerMarker s = false := by
  cases hc : containsSub peerMarker s
  · rfl
  · rw [hasNlBracket_of_marker s hc] at h
    exact absurd h (by decide)

theorem hasNlBracket_append (x y : List Char) (hx : hasNlBracket x = false)
    (hy : hasNlBracket y = false)
    (hb : ¬(x.getLast? = some '\n' ∧ y.head? = some '[')) :
    hasNlBracket (x ++ y) = false := by
  induction x with
  | nil => simpa using hy
  | cons a xt ih =>
    cases xt with
    | nil =>
      cases y with
      | nil => simp [hasNlBracket]
      | cons b yt =>
        show ((a = '\n' && b = '[') || hasNlBracket (b :: yt)) = false
        rw [hy]
        simp only [Bool.or_false]
        by_cases ha : a = '\n'
        · by_cases hbq : b = '['
          · exact absurd ⟨by rw [ha]; rfl, by rw [hbq]; rfl⟩ hb
          · simp [hbq]
        · simp [ha]
    | cons a2 xt2 =>
      have hx2 : hasNlBracket (a2 :: xt2) = false := by
        revert hx
        show ((a = '\n' && a2 = '[') || hasNlBracket (a2 :: xt2)) = false → _
        simp only [Bool.or_eq_false_iff]
        intro hx
        exact hx.2
      have hpair : (a = '\n' && a2 = '[') = false := by
        revert hx
        show ((a = '\n' && a2 = '[') || hasNlBracket (a2 :: xt2)) = false → _
        simp only [Bool.or_eq_false_iff]
        intro hx
        exact hx.1
      have hlast : (a2 :: xt2).getLast? = (a :: a2 :: xt2).getLast? := by
        rw [List.getLast?_cons_cons]
      show ((a = '\n' && a2 = '[') || hasNlBracket ((a2 :: xt2) ++ y)) = false
      rw [ih hx2 (by rw [hlast]; exact hb)]
      simpa using hpair

theorem hasNlBracket_no_nl (x : List Char) (hx : ∀ c ∈ x, c ≠ '\n') :
    hasNlBracket x = false := by
  induction x with
  | nil => rfl
  | cons a xt ih =>
    cases xt with
    | nil => rfl
    | cons b xt2 =>
      show ((a = '\n' && b = '[') || hasNlBracket (b :: xt2)) = false
      rw [ih (fun c hc => hx c (List.mem_cons_of_mem a hc))]
      have := hx a (List.mem_cons_self a _)
      simp [this]

theorem dropWhile_eq_self_of_head (s : List Char)
    (hlead : ∀ c, s.head? = some c → isPyWs c = false) :
    s.dropWhile isPyWs = s := by
  cases s with
  | nil => rfl
  | cons c t =>
    rw [List.dropWhile_cons, if_neg (by simp [hlead c rfl])]

theorem trailing_ws_all (s : List Char) :
    ∀ c ∈ (s.reverse.takeWhile isPyWs).reverse, isPyWs c = true := by
  intro c hc
  rw [List.mem_reverse] at hc
  exact List.mem_takeWhile_imp hc

theorem headerOf_pyStrip_eq (content : List Char)
    (hlead : ∀ c, content.head? = some c → isPyWs c = false) :
    headerOf (pyStrip content) = headerOf content := by
  unfold pyStrip
  rw [dropWhile_eq_self_of_head content hlead]
  conv_rhs => rw [dropTrailWs_decomp content]
  rw [headerOf_append_ws _ _ (trailing_ws_all content)]

theorem stanzasOf_pyStrip_eq (content : List Char)
    (hlead : ∀ c, content.head? = some c → isPyWs c = false) :
    stanzasOf (pyStrip content) = stanzasOf content := by
  unfold pyStrip
  rw [dropWhile_eq_self_of_head content hlead]
  conv_rhs => rw [dropTrailWs_decomp content]
  rw [stanzasOf_append_ws _ _ (trailing_ws_all content)]

theorem add_client_peer_doc_shape (content k ip psk : List Char) :
    add_client_peer_doc content k ip psk
      = (pyStrip content ++ ['\n']) ++ (peerMarker ++
          (lc "\nPublicKey = " ++ (k ++ (lc "\nPresharedKey = " ++ (psk ++
            (lc "\nAllowedIPs = " ++ (ip ++ (lc "/32\n" ++ ['\n'])))))))) := by
  unfold add_client_peer_doc build_peer_block
  rw [show peerMarker = ['\n'] ++ lc "[Peer]" from by decide]
  rw [show lc "\n\n" = ['\n'] ++ ['\n'] from by decide]
  rw [show lc "[Peer]\nPublicKey = " = lc "[Peer]" ++ lc "\nPublicKey = " from by decide]
  rw [show lc "\n" = ['\n'] from by decide]
  simp only [List.append_assoc]

theorem mem_of_getLast_opt (l : List Char) (a : Char) (h : l.getLast? = some a) : a ∈ l := by
  rw [← List.head?_reverse] at h
  have hmem : a ∈ l.reverse := by
    cases hr : l.reverse with
    | nil =>
      rw [hr] at h
      simp at h
    | cons b t =>
      rw [hr] at h
      simp only [List.head?_cons, Option.some.injEq] at h
      rw [← h]
      exact List.mem_cons_self b t
  simpa using hmem

theorem peer_tail_clean (k ip psk : List Char)
    (hk : '\n' ∉ k) (hip : '\n' ∉ ip) (hpsk : '\n' ∉ psk) :
    containsSub peerMarker
      (lc "\nPublicKey = " ++ (k ++ (lc "\nPresharedKey = " ++ (psk ++
        (lc "\nAllowedIPs = " ++ (ip ++ (lc "/32\n" ++ ['\n']))))))) = false := by
  apply no_marker_of_no_nlbracket
  have h1 : hasNlBracket (lc "/32\n" ++ ['\n']) = false := by decide
  have h2 : hasNlBracket (ip ++ (lc "/32\n" ++ ['\n'])) = false := by
    refine hasNlBracket_append _ _ (hasNlBracket_no_nl ip ?_) h1 ?_
    · intro c hc
      intro hceq
      exact hip (hceq ▸ hc)
    · rintro ⟨hg, -⟩
      exact hip (mem_of_getLast_opt _ _ hg)
  have h3 : hasNlBracket (lc "\nAllowedIPs = " ++ (ip ++ (lc "/32\n" ++ ['\n']))) = false := by
    refine hasNlBracket_append _ _ (by decide) h2 ?_
    rintro ⟨hg, -⟩
    exact absurd hg (by decide)
  have h4 : hasNlBracket (psk ++ (lc "\nAllowedIPs = " ++ (ip ++ (lc "/32\n" ++ ['\n'])))) =
      false := by
    refine hasNlBracket_append _ _ (hasNlBracket_no_nl psk ?_) h3 ?_
    · intro c hc
      intro hceq
      exact hpsk (hceq ▸ hc)
    · rintro ⟨hg, -⟩
      exact hpsk (mem_of_getLast_opt _ _ hg)
  have h5 : hasNlBracket (lc "\nPresharedKey = " ++ (psk ++ (lc "\nAllowedIPs = " ++
      (ip ++ (lc "/32\n" ++ ['\n']))))) = false := by
    refine hasNlBracket_append _ _ (by decide) h4 ?_
    rintro ⟨hg, -⟩
    exact absurd hg (by decide)
  have h6 : hasNlBracket (k ++ (lc "\nPresharedKey = " ++ (psk ++ (lc "\nAllowedIPs = " ++
      (ip ++ (lc "/32\n" ++ ['\n'])))))) = false := by
    refine hasNlBracket_append _ _ (hasNlBracket_no_nl k ?_) h5 ?_
    · intro c hc
      intro hceq
      exact hk (hceq ▸ hc)
    · rintro ⟨hg, -⟩
      exact hk (mem_of_getLast_opt _ _ hg)
  refine hasNlBracket_append _ _ (by decide) h6 ?_
  rintro ⟨hg, -⟩
  exact absurd hg (by decide)

theorem peerHead_tail_eq (k ip psk : List Char) :
    lc "[Peer]" ++ (lc "\nPublicKey = " ++ (k ++ (lc "\nPresharedKey = " ++ (psk ++
      (lc "\nAllowedIPs = " ++ (ip ++ (lc "/32\n" ++ ['\n'])))))))
    = build_peer_block k ip psk ++ ['\n'] := by
  unfold build_peer_block
  rw [show lc "[Peer]\nPublicKey = " = lc "[Peer]" ++ lc "\nPublicKey = " from by decide]
  simp only [List.append_assoc]

theorem add_client_peer_parse (content k ip psk : List Char)
    (hlead : ∀ c, content.head? = some c → isPyWs c = false)
    (hk : '\n' ∉ k) (hip : '\n' ∉ ip) (hpsk : '\n' ∉ psk) :
    headerOf (add_client_peer_doc content k ip psk) = headerOf content ∧
    stanzasOf (add_client_peer_doc content k ip psk)
      = stanzasOf content ++ [pyStrip (build_peer_block k ip psk)] := by
  have hsplit : splitOnSep peerMarker (add_client_peer_doc content k ip psk)
      = splitOnSep peerMarker (pyStrip content ++ ['\n']) ++
        [lc "\nPublicKey = " ++ (k ++ (lc "\nPresharedKey = " ++ (psk ++
          (lc "\nAllowedIPs = " ++ (ip ++ (lc "/32\n" ++ ['\n']))))))] := by
    rw [add_client_peer_doc_shape]
    rw [splitOnSep_insert _ _ _ peerMarker_borderFree]
    rw [splitOnSep_single_of_clean peerMarker _ peerMarker_ne_nil
      (peer_tail_clean k ip psk hk hip hpsk)]
  have hstrip_hdr : headerOf (pyStrip content ++ ['\n']) = headerOf content := by
    rw [headerOf_append_ws (pyStrip content) ['\n'] (by intro c hc; simp at hc; subst hc; decide)]
    exact headerOf_pyStrip_eq content hlead
  have hstrip_stz : stanzasOf (pyStrip content ++ ['\n']) = stanzasOf content := by
    rw [stanzasOf_append_ws (pyStrip content) ['\n'] (by intro c hc; simp at hc; subst hc; decide)]
    exact stanzasOf_pyStrip_eq content hlead
  constructor
  · unfold headerOf at hstrip_hdr ⊢
    rw [hsplit]
    cases hA : splitOnSep peerMarker (pyStrip content ++ ['\n']) with
    | nil => exact absurd hA (splitOnSep_ne_nil _ _)
    | cons a0 arest =>
      rw [hA] at hstrip_hdr
      simpa using hstrip_hdr
  · unfold stanzasOf at hstrip_stz ⊢
    rw [hsplit]
    cases hA : splitOnSep peerMarker (pyStrip content ++ ['\n']) with
    | nil => exact absurd hA (splitOnSep_ne_nil _ _)
    | cons a0 arest =>
      rw [hA] at hstrip_stz
      try simp only [List.tail_cons] at hstrip_stz
      show List.map (fun sec => pyStrip (lc "[Peer]" ++ sec))
        (arest ++ [lc "\nPublicKey = " ++ (k ++ (lc "\nPresharedKey = " ++ (psk ++
          (lc "\nAllowedIPs = " ++ (ip ++ (lc "/32\n" ++ ['\n']))))))]) = _
      simp only [List.map_append, List.map_cons, List.map_nil]
      rw [hstrip_stz]
      congr 1
      rw [peerHead_tail_eq k ip psk]
      exact congrArg (fun x => [x]) (pyStrip_append_ws_char _ '\n' (by decide))

/-! ## Occurrences and trailing whitespace: the kept-stanzas bridge -/

/-- An occurrence of a needle that does not end in whitespace survives the
removal of a trailing all-whitespace suffix. -/
theorem containsSub_append_ws_tail (p : List Char)
    (hp : p ≠ []) (hlast : ∀ d, p.getLast? = some d → isPyWs d = false) :
    ∀ w x, (∀ c ∈ w, isPyWs c = true) → containsSub p (x ++ w) = true →
      containsSub p x = true := by
  intro w
  induction w using List.reverseRecOn with
  | nil =>
    intro x _ h
    simpa using h
  | append_singleton ws c ih =>
    intro x hw h
    rw [show x ++ (ws ++ [c]) = (x ++ ws) ++ [c] by simp] at h
    have hc : isPyWs c = true := hw c (by simp)
    have hxs : containsSub p (x ++ ws) = true := by
      apply containsSub_snoc_ne_last p (x ++ ws) c hp _ h
      intro d hd hdc
      subst hdc
      rw [hlast d hd] at hc
      exact Bool.false_ne_true hc
    exact ih x (fun d hd => hw d (List.mem_append_left _ hd)) hxs

/-- For a needle that does not end in whitespace, occurrence in `x` implies
occurrence in `dropTrailWs x`. -/
theorem containsSub_dropTrailWs_of (p x : List Char)
    (hp : p ≠ []) (hlast : ∀ d, p.getLast? = some d → isPyWs d = false)
    (h : containsSub p x = true) : containsSub p (dropTrailWs x) = true := by
  apply containsSub_append_ws_tail p hp hlast (x.reverse.takeWhile isPyWs).reverse
    (dropTrailWs x)
  · intro c hc
    rw [List.mem_reverse] at hc
    exact List.mem_takeWhile_imp hc
  · rw [← dropTrailWs_decomp x]
    exact h

/-- The `PublicKey = <key>` needle search gives the same answer on a stanza
before and after stripping, as long as the key does not end in whitespace. -/
theorem containsSub_keyLine_pyStrip (key sec : List Char) (hkey : key ≠ [])
    (hklast : ∀ d, key.getLast? = some d → isPyWs d = false) :
    containsSub (keyLine key) (pyStrip (lc "[Peer]" ++ sec))
      = containsSub (keyLine key) (lc "[Peer]" ++ sec) := by
  have hneedle_ne : keyLine key ≠ [] := by
    unfold keyLine
    simp [lc]
  have hneedle_last : ∀ d, (keyLine key).getLast? = some d → isPyWs d = false := by
    intro d hd
    unfold keyLine at hd
    rw [getLast?_append_ne (lc "PublicKey = ") key hkey] at hd
    exact hklast d hd
  have hps : pyStrip (lc "[Peer]" ++ sec) = lc "[Peer]" ++ dropTrailWs sec :=
    pyStrip_pre_append (lc "[Peer]") sec '[' (lc "Peer]") (by decide) (by decide)
  rw [hps]
  cases hfwd : containsSub (keyLine key) (lc "[Peer]" ++ sec) with
  | true =>
    rw [show lc "[Peer]" ++ sec
        = (lc "[Peer]" ++ dropTrailWs sec) ++ (sec.reverse.takeWhile isPyWs).reverse from by
      rw [List.append_assoc, ← dropTrailWs_decomp sec]] at hfwd
    exact containsSub_append_ws_tail (keyLine key) hneedle_ne hneedle_last _ _
      (by
        intro c hc
        rw [List.mem_reverse] at hc
        exact List.mem_takeWhile_imp hc) hfwd
  | false =>
    cases hbwd : containsSub (keyLine key) (lc "[Peer]" ++ dropTrailWs sec) with
    | false => rfl
    | true =>
      exfalso
      have : containsSub (keyLine key) (lc "[Peer]" ++ sec) = true := by
        rw [show lc "[Peer]" ++ sec
            = (lc "[Peer]" ++ dropTrailWs sec) ++ (sec.reverse.takeWhile isPyWs).reverse from by
          rw [List.append_assoc, ← dropTrailWs_decomp sec]]
        exact containsSub_append_right _ _ _ hbwd
      rw [hfwd] at this
      exact Bool.false_ne_true this

/-- The stanzas `_remove_peer_block` keeps are exactly the document's stanzas
that do not contain the `PublicKey = <key>` needle, when the key does not end
in whitespace. -/
theorem keptOf_eq_filter (content key : List Char) (hkey : key ≠ [])
    (hklast : ∀ d, key.getLast? = some d → isPyWs d = false) :
    keptOf content key
      = (stanzasOf content).filter (fun st => !(containsSub (keyLine key) st)) := by
  unfold keptOf stanzasOf
  rw [List.filter_map, List.filter_map, List.map_map]
  have hfe : (fun sec => pyStrip (lc "[Peer]" ++ sec))
      = pyStrip ∘ (fun sec => lc "[Peer]" ++ sec) := rfl
  rw [hfe]
  congr 1
  apply List.filter_congr
  intro sec _
  show (!(containsSub (keyLine key) (lc "[Peer]" ++ sec)))
    = (!(containsSub (keyLine key) (pyStrip (lc "[Peer]" ++ sec))))
  rw [containsSub_keyLine_pyStrip key sec hkey hklast]

/-! ## Trailing whitespace of the appended document -/

theorem takeWhile_ws_stop (w : List Char) (c : Char) (rest : List Char)
    (hw : ∀ d ∈ w, isPyWs d = true) (hc : isPyWs c = false) :
    (w ++ c :: rest).takeWhile isPyWs = w := by
  induction w with
  | nil =>
    simp [List.takeWhile_cons, hc]
  | cons a t ih =>
    rw [List.cons_append, List.takeWhile_cons]
    rw [if_pos (hw a (List.mem_cons_self a t))]
    rw [ih (fun d hd => hw d (List.mem_cons_of_mem a hd))]

theorem takeWhile_ws_all (l : List Char) (hl : ∀ d ∈ l, isPyWs d = true) :
    l.takeWhile isPyWs = l := by
  induction l with
  | nil => rfl
  | cons a t ih =>
    rw [List.takeWhile_cons, if_pos (hl a (List.mem_cons_self a t))]
    rw [ih (fun d hd => hl d (List.mem_cons_of_mem a hd))]

theorem trailingWs_append_run (x w : List Char)
    (hw : ∀ c ∈ w, isPyWs c = true)
    (hx : ∀ d, x.getLast? = some d → isPyWs d = false) :
    trailingWs (x ++ w) = w := by
  unfold trailingWs
  rw [List.reverse_append]
  cases hxr : x.reverse with
  | nil =>
    rw [List.append_nil]
    rw [takeWhile_ws_all w.reverse (fun d hd => hw d (List.mem_reverse.mp hd))]
    exact List.reverse_reverse w
  | cons d dt =>
    have hd : isPyWs d = false := by
      apply hx
      rw [← List.head?_reverse, hxr]
      rfl
    rw [takeWhile_ws_stop w.reverse d dt (fun c hc => hw c (List.mem_reverse.mp hc)) hd]
    exact List.reverse_reverse w

theorem ne_nil_append_right (A B : List Char) (hB : B ≠ []) : A ++ B ≠ [] := by
  intro h
  exact hB (List.append_eq_nil.mp h).2

/-- `add_client_peer` always leaves exactly two trailing newlines: the appended
block already ends in `"\n"` and the code appends one more. -/
theorem add_client_peer_trailing (content k ip psk : List Char) :
    trailingWs (add_client_peer_doc content k ip psk) = lc "\n\n" := by
  have hform : add_client_peer_doc content k ip psk
      = ((pyStrip content ++ ['\n']) ++ (peerMarker ++
          (lc "\nPublicKey = " ++ (k ++ (lc "\nPresharedKey = " ++ (psk ++
            (lc "\nAllowedIPs = " ++ (ip ++ lc "/32")))))))) ++ lc "\n\n" := by
    rw [add_client_peer_doc_shape]
    rw [show (lc "/32\n" ++ ['\n'] : List Char) = lc "/32" ++ lc "\n\n" from by decide]
    simp only [List.append_assoc]
  rw [hform]
  apply trailingWs_append_run
  · decide
  · have h9 : (lc "/32" : List Char) ≠ [] := by decide
    have h8 : ip ++ lc "/32" ≠ [] := ne_nil_append_right _ _ h9
    have h7 : lc "\nAllowedIPs = " ++ (ip ++ lc "/32") ≠ [] := ne_nil_append_right _ _ h8
    have h6 : psk ++ (lc "\nAllowedIPs = " ++ (ip ++ lc "/32")) ≠ [] :=
      ne_nil_append_right _ _ h7
    have h5 : lc "\nPresharedKey = " ++ (psk ++ (lc "\nAllowedIPs = " ++
        (ip ++ lc "/32"))) ≠ [] := ne_nil_append_right _ _ h6
    have h4 : k ++ (lc "\nPresharedKey = " ++ (psk ++ (lc "\nAllowedIPs = " ++
        (ip ++ lc "/32")))) ≠ [] := ne_nil_append_right _ _ h5
    have h3 : lc "\nPublicKey = " ++ (k ++ (lc "\nPresharedKey = " ++ (psk ++
        (lc "\nAllowedIPs = " ++ (ip ++ lc "/32"))))) ≠ [] := ne_nil_append_right _ _ h4
    have h2 : peerMarker ++ (lc "\nPublicKey = " ++ (k ++ (lc "\nPresharedKey = " ++
        (psk ++ (lc "\nAllowedIPs = " ++ (ip ++ lc "/32")))))) ≠ [] :=
      ne_nil_append_right _ _ h3
    intro d hd
    rw [getLast?_append_ne _ _ h2, getLast?_append_ne _ _ h3, getLast?_append_ne _ _ h4,
      getLast?_append_ne _ _ h5, getLast?_append_ne _ _ h6, getLast?_append_ne _ _ h7,
      getLast?_append_ne _ _ h8, getLast?_append_ne _ _ h9] at hd
    rw [show (lc "/32" : List Char).getLast? = some '2' from by decide] at hd
    cases hd
    decide

/-- The freshly built stanza contains the `PublicKey = <key>` needle, even
after stripping, for any key not ending in whitespace. -/
theorem keyLine_in_new_stanza (k ip psk : List Char) (hkey : k ≠ [])
    (hklast : ∀ d, k.getLast? = some d → isPyWs d = false) :
    containsSub (keyLine k) (pyStrip (build_peer_block k ip psk)) = true := by
  have hin : containsSub (keyLine k) (build_peer_block k ip psk) = true := by
    apply containsSub_of_drop _ _ (lc "[Peer]\n").length
    have hb : build_peer_block k ip psk
        = lc "[Peer]\n" ++ (keyLine k ++ (lc "\nPresharedKey = " ++ (psk ++
            (lc "\nAllowedIPs = " ++ (ip ++ lc "/32\n"))))) := by
      unfold build_peer_block keyLine
      rw [show (lc "[Peer]\nPublicKey = " : List Char)
          = lc "[Peer]\n" ++ lc "PublicKey = " from by decide]
      simp only [List.append_assoc]
    rw [hb, List.drop_left]
    exact containsSub_of_occurrence _ _ 0 (lstartsWith_self_append _ _)
  have hneedle_ne : keyLine k ≠ [] := by
    unfold keyLine
    simp [lc]
  have hneedle_last : ∀ d, (keyLine k).getLast? = some d → isPyWs d = false := by
    intro d hd
    unfold keyLine at hd
    rw [getLast?_append_ne _ _ hkey] at hd
    exact hklast d hd
  have hps : pyStrip (build_peer_block k ip psk)
      = dropTrailWs (build_peer_block k ip psk) := by
    unfold pyStrip
    rw [dropWhile_eq_self_of_head]
    intro c hc
    rw [show build_peer_block k ip psk = lc "[Peer]\nPublicKey = " ++ (k ++
        (lc "\nPresharedKey = " ++ (psk ++ (lc "\nAllowedIPs = " ++
          (ip ++ lc "/32\n"))))) from by
      unfold build_peer_block
      simp only [List.append_assoc]] at hc
    rw [head?_append_ne _ _ (by decide)] at hc
    rw [show (lc "[Peer]\nPublicKey = " : List Char).head? = some '[' from by decide] at hc
    cases hc
    decide
  rw [hps]
  exact containsSub_dropTrailWs_of _ _ hneedle_ne hneedle_last hin

/-- The document produced by `add_client_peer` always contains the stanza
marker: a `"\n[Peer]"` occurrence sits right at the appended blank line. -/
theorem add_client_peer_has_marker (content k ip psk : List Char) :
    containsSub peerMarker (add_client_peer_doc content k ip psk) = true := by
  rw [add_client_peer_doc_shape]
  apply containsSub_append_left
  exact containsSub_of_occurrence _ _ 0 (lstartsWith_self_append _ _)



/-! # Claim theorems -/

/-- **C1.** The allocation path is broken: `AWGService.calculate_next_ip`
passes three positional arguments to the two-parameter
`get_next_available_ip`, so for the claim's scenario (subnet `10.8.0.0/24`,
empty peer list) the path raises `TypeError` instead of returning `10.8.0.2`.
The two-parameter function itself, called directly with the server address
reserved, does return `10.8.0.2`. -/
theorem C1_calculate_next_ip_type_error :
    calculate_next_ip (lc "10.8.0.0/24") [] = Except.error PyErr.typeError ∧
    get_next_available_ip (lc "10.8.0.0/24") [lc "10.8.0.1"]
      = Except.ok (lc "10.8.0.2") := by
  constructor
  · decide
  · decide

/-- **C9 (amended).** For a subnet whose prefix length is at most 30,
`get_next_available_ip` returns the string form of an address strictly
between the network address and the broadcast address that is not any
parseable member of the reserved list.  (Determinism is immediate: the
function is pure.)  For /31 and /32 prefixes the claim fails; see the
counterexample. -/
theorem C9_next_ip_avoids (subnet : List Char) (existing : List (List Char))
    (net p : Nat) (hparse : parseNetwork subnet = some (net, p)) (hp : p ≤ 30)
    (ip : List Char) (hok : get_next_available_ip subnet existing = Except.ok ip) :
    ∃ v, ip = ipToString v ∧ net < v ∧ v < net + 2 ^ (32 - p) - 1 ∧
      ∀ e ∈ existing, parseIPv4 e ≠ some v := by
  unfold get_next_available_ip at hok
  rw [hparse] at hok
  dsimp only at hok
  cases hfind : (hostsList net p).find?
      (fun ip => !((existing.filterMap parseIPv4).any (fun e => e == ip))) with
  | none =>
    rw [hfind] at hok
    exact absurd hok (by simp)
  | some v =>
    rw [hfind] at hok
    have hip : ip = ipToString v := by
      simpa using hok.symm
    have hpred := List.find?_some hfind
    have hmem := List.mem_of_find?_eq_some hfind
    rw [hostsList, if_pos hp] at hmem
    rcases List.mem_map.mp hmem with ⟨i, hi, hvi⟩
    rw [List.mem_range] at hi
    have hpow : 2 ^ 2 ≤ 2 ^ (32 - p) := Nat.pow_le_pow_right (by omega) (by omega)
    refine ⟨v, hip, by omega, by omega, ?_⟩
    intro e he hpe
    have hvmem : v ∈ existing.filterMap parseIPv4 :=
      List.mem_filterMap.mpr ⟨e, he, hpe⟩
    have : (existing.filterMap parseIPv4).any (fun e => e == v) = true :=
      List.any_eq_true.mpr ⟨v, hvmem, by simp⟩
    rw [this] at hpred
    exact absurd hpred (by decide)

/-- **C9 counterexample.** On the /31 subnet `10.0.0.0/31` with an empty
reserved set, `get_next_available_ip` returns `10.0.0.0`, which *is* the
subnet's network address (`10.0.0.0/31` parses to network value 167772160
and `ipToString 167772160 = "10.0.0.0"`). -/
theorem C9_counterexample :
    parseNetwork (lc "10.0.0.0/31") = some (167772160, 31) ∧
    get_next_available_ip (lc "10.0.0.0/31") [] = Except.ok (ipToString 167772160) := by
  constructor
  · decide
  · decide

/-- **C9 witness.** Concrete run of the amended theorem on `10.8.0.0/24`
with `10.8.0.1` reserved. -/
theorem C9_next_ip_avoids_witness :
    ∃ v, (lc "10.8.0.2" : List Char) = ipToString v ∧ 168296448 < v ∧
      v < 168296448 + 2 ^ (32 - 24) - 1 ∧
      ∀ e ∈ [lc "10.8.0.1"], parseIPv4 e ≠ some v :=
  C9_next_ip_avoids (lc "10.8.0.0/24") [lc "10.8.0.1"] 168296448 24
    (by decide) (by decide) (lc "10.8.0.2") (by decide)

/-- **C7 (amended).** `add_client_peer` preserves the header, appends exactly
one new stanza with the `PublicKey`/`PresharedKey`/`AllowedIPs = <ip>/32`
lines, but normalizes trailing whitespace to exactly **two** newlines, not
one: the built block already ends in a newline and the code appends another.
(It also strips the original content's surrounding whitespace rather than
leaving it in place.) -/
theorem C7_append_peer (content k ip psk : List Char)
    (hlead : ∀ c, content.head? = some c → isPyWs c = false)
    (hk : '\n' ∉ k) (hip : '\n' ∉ ip) (hpsk : '\n' ∉ psk) :
    headerOf (add_client_peer_doc content k ip psk) = headerOf content ∧
    stanzasOf (add_client_peer_doc content k ip psk)
      = stanzasOf content ++ [pyStrip (build_peer_block k ip psk)] ∧
    trailingWs (add_client_peer_doc content k ip psk) = lc "\n\n" := by
  refine ⟨(add_client_peer_parse content k ip psk hlead hk hip hpsk).1,
    (add_client_peer_parse content k ip psk hlead hk hip hpsk).2,
    add_client_peer_trailing content k ip psk⟩

/-- **C7 counterexample.** The claim's "exactly one newline" is false: the
appended document always ends in two newlines. -/
theorem C7_counterexample :
    trailingWs (add_client_peer_doc (lc "[Interface]\nX = 1\n")
        (lc "K") (lc "10.8.0.2") (lc "P"))
      ≠ lc "\n" := by decide

/-- **C7 witness.** Concrete run of the amended append theorem. -/
theorem C7_append_peer_witness :
    headerOf (add_client_peer_doc (lc "[Interface]\nX = 1\n")
        (lc "KEYA") (lc "10.8.0.2") (lc "PSK1"))
      = headerOf (lc "[Interface]\nX = 1\n") ∧
    stanzasOf (add_client_peer_doc (lc "[Interface]\nX = 1\n")
        (lc "KEYA") (lc "10.8.0.2") (lc "PSK1"))
      = stanzasOf (lc "[Interface]\nX = 1\n")
        ++ [pyStrip (build_peer_block (lc "KEYA") (lc "10.8.0.2") (lc "PSK1"))] ∧
    trailingWs (add_client_peer_doc (lc "[Interface]\nX = 1\n")
        (lc "KEYA") (lc "10.8.0.2") (lc "PSK1")) = lc "\n\n" :=
  C7_append_peer (lc "[Interface]\nX = 1\n") (lc "KEYA") (lc "10.8.0.2") (lc "PSK1")
    (by intro c hc; injection hc with h; subst h; decide)
    (by decide) (by decide) (by decide)

/-- **C8 (amended).** On a document containing the stanza marker and a
non-empty header, `_remove_peer_block` preserves the header and keeps exactly
the stanzas that do **not contain the text** `PublicKey = <key>` — a substring
test, not a `PublicKey`-line equality test.  When no stanza contains that
text the result is semantically equal to the input (same header, same
stanzas) but not byte-for-byte identical in general, because whitespace is
re-normalized; see the counterexample. -/
theorem C8_remove_peer (content key : List Char)
    (hmark : containsSub peerMarker content = true)
    (hhdr : headerOf content ≠ [])
    (hkey : key ≠ []) (hklast : ∀ d, key.getLast? = some d → isPyWs d = false) :
    headerOf (remove_peer_block content key) = headerOf content ∧
    stanzasOf (remove_peer_block content key)
      = (stanzasOf content).filter (fun st => !(containsSub (keyLine key) st)) ∧
    (docHasPeerFor content key = false →
      semEqDoc (remove_peer_block content key) content) := by
  have hstz : stanzasOf (remove_peer_block content key)
      = (stanzasOf content).filter (fun st => !(containsSub (keyLine key) st)) := by
    rw [stanzasOf_remove_of_hdr content key hmark hhdr]
    exact keptOf_eq_filter content key hkey hklast
  refine ⟨headerOf_remove_of_hdr content key hmark hhdr, hstz, ?_⟩
  intro hfree
  refine ⟨headerOf_remove_of_hdr content key hmark hhdr, ?_⟩
  rw [hstz]
  apply List.filter_eq_self.mpr
  intro st hst
  unfold docHasPeerFor at hfree
  have hstf : containsSub (keyLine key) st = false := by
    cases hc : containsSub (keyLine key) st with
    | false => rfl
    | true =>
      have : (stanzasOf content).any (fun st => containsSub (keyLine key) st) = true :=
        List.any_eq_true.mpr ⟨st, hst, hc⟩
      rw [hfree] at this
      exact absurd this (by decide)
  simp [hstf]

/-- **C8 counterexample.** With key `"abc"`, the stanza whose `PublicKey`
line reads `PublicKey = abcd` (a different key) is dropped — the code uses a
substring test — and the result is not byte-for-byte the input document. -/
theorem C8_counterexample :
    remove_peer_block
        (lc "[Interface]\nX = 1\n\n[Peer]\nPublicKey = abcd\nAllowedIPs = 10.8.0.3/32\n")
        (lc "abc")
      = lc "[Interface]\nX = 1\n" ∧
    remove_peer_block
        (lc "[Interface]\nX = 1\n\n[Peer]\nPublicKey = abcd\nAllowedIPs = 10.8.0.3/32\n")
        (lc "abc")
      ≠ lc "[Interface]\nX = 1\n\n[Peer]\nPublicKey = abcd\nAllowedIPs = 10.8.0.3/32\n" := by
  constructor
  · decide
  · decide

/-- **C8 witness.** Concrete run of the amended removal theorem: the matching
stanza goes, the other stays, and a key-free removal is semantically a no-op. -/
theorem C8_remove_peer_witness :
    headerOf (remove_peer_block
        (lc "[Interface]\nX = 1\n\n[Peer]\nPublicKey = KEYA\nAllowedIPs = 10.8.0.2/32\n")
        (lc "KEYA"))
      = headerOf (lc "[Interface]\nX = 1\n\n[Peer]\nPublicKey = KEYA\nAllowedIPs = 10.8.0.2/32\n") ∧
    stanzasOf (remove_peer_block
        (lc "[Interface]\nX = 1\n\n[Peer]\nPublicKey = KEYA\nAllowedIPs = 10.8.0.2/32\n")
        (lc "KEYA"))
      = (stanzasOf (lc "[Interface]\nX = 1\n\n[Peer]\nPublicKey = KEYA\nAllowedIPs = 10.8.0.2/32\n")).filter
          (fun st => !(containsSub (keyLine (lc "KEYA")) st)) ∧
    (docHasPeerFor
        (lc "[Interface]\nX = 1\n\n[Peer]\nPublicKey = KEYA\nAllowedIPs = 10.8.0.2/32\n")
        (lc "KEYA") = false →
      semEqDoc (remove_peer_block
          (lc "[Interface]\nX = 1\n\n[Peer]\nPublicKey = KEYA\nAllowedIPs = 10.8.0.2/32\n")
          (lc "KEYA"))
        (lc "[Interface]\nX = 1\n\n[Peer]\nPublicKey = KEYA\nAllowedIPs = 10.8.0.2/32\n")) :=
  C8_remove_peer
    (lc "[Interface]\nX = 1\n\n[Peer]\nPublicKey = KEYA\nAllowedIPs = 10.8.0.2/32\n")
    (lc "KEYA") (by decide) (by decide) (by decide)
    (by intro d hd
        rw [show (lc "KEYA").getLast? = some 'A' from rfl] at hd
        injection hd with h
        subst h
        decide)

/-- **C6 (amended).** Append-then-remove restores the document up to semantic
equality (same header, same stanzas) **provided the key does not already occur
in the document**: removal matches by substring, so a pre-existing stanza for
the same key would be dropped too (see the counterexample).  The side
conditions ask for a well-formed call: non-whitespace-leading document,
non-empty header, newline-free fields, and a key that is non-empty and does
not end in whitespace. -/
theorem C6_append_remove_roundtrip (doc k ip psk : List Char)
    (hlead : ∀ c, doc.head? = some c → isPyWs c = false)
    (hhdr : headerOf doc ≠ [])
    (hk : '\n' ∉ k) (hip : '\n' ∉ ip) (hpsk : '\n' ∉ psk)
    (hkey : k ≠ []) (hklast : ∀ d, k.getLast? = some d → isPyWs d = false)
    (hfree : docHasPeerFor doc k = false) :
    semEqDoc (remove_peer_block (add_client_peer_doc doc k ip psk) k) doc := by
  have hparse := add_client_peer_parse doc k ip psk hlead hk hip hpsk
  have hmark := add_client_peer_has_marker doc k ip psk
  have hhdrA : headerOf (add_client_peer_doc doc k ip psk) ≠ [] := by
    rw [hparse.1]
    exact hhdr
  constructor
  · rw [headerOf_remove_of_hdr _ k hmark hhdrA, hparse.1]
  · rw [stanzasOf_remove_of_hdr _ k hmark hhdrA]
    rw [keptOf_eq_filter _ k hkey hklast]
    rw [hparse.2, List.filter_append]
    have h1 : (stanzasOf doc).filter (fun st => !(containsSub (keyLine k) st))
        = stanzasOf doc := by
      apply List.filter_eq_self.mpr
      intro st hst
      unfold docHasPeerFor at hfree
      have hstf : containsSub (keyLine k) st = false := by
        cases hc : containsSub (keyLine k) st with
        | false => rfl
        | true =>
          have : (stanzasOf doc).any (fun st => containsSub (keyLine k) st) = true :=
            List.any_eq_true.mpr ⟨st, hst, hc⟩
          rw [hfree] at this
          exact absurd this (by decide)
      simp [hstf]
    have h2 : ([pyStrip (build_peer_block k ip psk)]).filter
        (fun st => !(containsSub (keyLine k) st)) = [] := by
      simp [List.filter, keyLine_in_new_stanza k ip psk hkey hklast]
    rw [h1, h2, List.append_nil]

set_option maxRecDepth 8000 in
/-- **C6 counterexample.** If the document already holds a stanza for the same
key, append-then-remove erases both stanzas, so the round-trip does not
restore the document. -/
theorem C6_counterexample :
    ¬ semEqDoc
      (remove_peer_block
        (add_client_peer_doc
          (lc "[Interface]\nX = 1\n\n[Peer]\nPublicKey = K\nAllowedIPs = 10.8.0.3/32\n")
          (lc "K") (lc "10.8.0.4") (lc "P"))
        (lc "K"))
      (lc "[Interface]\nX = 1\n\n[Peer]\nPublicKey = K\nAllowedIPs = 10.8.0.3/32\n") := by
  decide

/-- **C6 witness.** Concrete round-trip on a fresh key. -/
theorem C6_append_remove_roundtrip_witness :
    semEqDoc
      (remove_peer_block
        (add_client_peer_doc (lc "[Interface]\nX = 1\n")
          (lc "KEYA") (lc "10.8.0.2") (lc "PSK1"))
        (lc "KEYA"))
      (lc "[Interface]\nX = 1\n") :=
  C6_append_remove_roundtrip (lc "[Interface]\nX = 1\n")
    (lc "KEYA") (lc "10.8.0.2") (lc "PSK1")
    (by intro c hc; injection hc with h; subst h; decide)
    (by decide) (by decide) (by decide) (by decide) (by decide)
    (by intro d hd
        rw [show (lc "KEYA").getLast? = some 'A' from rfl] at hd
        injection hd with h
        subst h
        decide)
    (by decide)

/-- Rows surviving a delete never carry the deleted id. -/
theorem dbDelete_clears (db : List PeerRec) (rid : Nat) :
    ∀ rec ∈ dbDelete db rid, rec.rid ≠ rid := by
  intro rec hrec
  unfold dbDelete at hrec
  have h := List.mem_filter.mp hrec
  simpa using h.2

/-- **C2 (amended).** When the sync step fails **and the best-effort stanza
rollback and the row delete both succeed**, `create_client` re-raises, the
live document holds no stanza containing the peer's key, and persistence
holds no row with the peer's id.  The rollback is best-effort: if it raises,
the stanza stays behind (see the counterexample). -/
theorem C2_sync_failure_cleanup (st : WorldState) (plan : CreatePlan)
    (client_name priv pub psk next_ip : List Char)
    (happend : plan.appendFails = false) (hsync : plan.syncFails = true)
    (hrb : plan.rollbackRemoveFails = false) (hdb : plan.dbDeleteFails = false) :
    (create_client_from_ip st plan client_name priv pub psk next_ip).1
      = Except.error PyErr.awgServiceError ∧
    (∀ stz ∈ stanzasOf (create_client_from_ip st plan client_name priv pub psk next_ip).2.doc,
      containsSub (keyLine pub) stz = false) ∧
    (∀ rec ∈ (create_client_from_ip st plan client_name priv pub psk next_ip).2.db,
      rec.rid ≠ st.nextId) := by
  refine ⟨?_, ?_, ?_⟩
  · simp [create_client_from_ip, rollback_awg_peer, happend, hsync, hrb, hdb]
  · intro stz hstz
    have hdoc : (create_client_from_ip st plan client_name priv pub psk next_ip).2.doc
        = remove_peer_block (add_client_peer_doc st.doc pub next_ip psk) pub := by
      simp [create_client_from_ip, rollback_awg_peer, happend, hsync, hrb, hdb]
    rw [hdoc] at hstz
    exact stanzasOf_remove_key_free _ _ stz hstz
  · intro rec hrec
    have hdb2 : (create_client_from_ip st plan client_name priv pub psk next_ip).2.db
        = dbDelete (st.db ++ [PeerRec.mk st.nextId client_name pub next_ip psk none]) st.nextId := by
      simp [create_client_from_ip, rollback_awg_peer, happend, hsync, hrb, hdb]
    rw [hdb2] at hrec
    exact dbDelete_clears _ _ rec hrec

set_option maxRecDepth 8000 in
/-- **C2 counterexample.** With the sync step failing and the best-effort
rollback itself raising, `create_client` still re-raises but the appended
stanza stays in the live document — the claim's "no stanza for that key
afterwards" does not hold of every sync-failure run. -/
theorem C2_counterexample :
    docHasPeerFor
      ((create_client_from_ip
          { doc := lc "[Interface]\nX = 1\n", db := [], minio := [], nextId := 1 }
          { appendFails := false, syncFails := true, rollbackRemoveFails := true,
            uploadFails := false, updateFails := false, dbDeleteFails := false,
            resyncFails := false }
          (lc "c") (lc "priv") (lc "K") (lc "P") (lc "10.8.0.2")).2.doc)
      (lc "K") = true := by
  decide

set_option maxRecDepth 8000 in
/-- **C2 witness.** Concrete sync-failure run with a working rollback. -/
theorem C2_sync_failure_cleanup_witness :
    (create_client_from_ip
        { doc := lc "[Interface]\nX = 1\n", db := [], minio := [], nextId := 1 }
        { appendFails := false, syncFails := true, rollbackRemoveFails := false,
          uploadFails := false, updateFails := false, dbDeleteFails := false,
          resyncFails := false }
        (lc "c") (lc "priv") (lc "K") (lc "P") (lc "10.8.0.2")).1
      = Except.error PyErr.awgServiceError ∧
    (∀ stz ∈ stanzasOf (create_client_from_ip
        { doc := lc "[Interface]\nX = 1\n", db := [], minio := [], nextId := 1 }
        { appendFails := false, syncFails := true, rollbackRemoveFails := false,
          uploadFails := false, updateFails := false, dbDeleteFails := false,
          resyncFails := false }
        (lc "c") (lc "priv") (lc "K") (lc "P") (lc "10.8.0.2")).2.doc,
      containsSub (keyLine (lc "K")) stz = false) ∧
    (∀ rec ∈ (create_client_from_ip
        { doc := lc "[Interface]\nX = 1\n", db := [], minio := [], nextId := 1 }
        { appendFails := false, syncFails := true, rollbackRemoveFails := false,
          uploadFails := false, updateFails := false, dbDeleteFails := false,
          resyncFails := false }
        (lc "c") (lc "priv") (lc "K") (lc "P") (lc "10.8.0.2")).2.db,
      rec.rid ≠ 1) :=
  C2_sync_failure_cleanup
    { doc := lc "[Interface]\nX = 1\n", db := [], minio := [], nextId := 1 }
    { appendFails := false, syncFails := true, rollbackRemoveFails := false,
      uploadFails := false, updateFails := false, dbDeleteFails := false,
      resyncFails := false }
    (lc "c") (lc "priv") (lc "K") (lc "P") (lc "10.8.0.2")
    rfl rfl rfl rfl

/-- **C10.** When artifact publication or the final record update fails and
the compensating re-sync inside the rollback handler itself raises, that
exception propagates before the row delete is reached: the call errors and
the freshly created `PeerRecord` row is still in persistence. -/
theorem C10_resync_not_best_effort (st : WorldState) (plan : CreatePlan)
    (client_name priv pub psk next_ip : List Char)
    (happend : plan.appendFails = false) (hsync : plan.syncFails = false)
    (hresync : plan.resyncFails = true)
    (hfail : plan.uploadFails = true ∨ plan.updateFails = true) :
    (create_client_from_ip st plan client_name priv pub psk next_ip).1
      = Except.error PyErr.awgServiceError ∧
    (create_client_from_ip st plan client_name priv pub psk next_ip).2.db
      = st.db ++ [PeerRec.mk st.nextId client_name pub next_ip psk none] := by
  cases hup : plan.uploadFails with
  | true =>
    constructor
    · simp [create_client_from_ip, rollback_awg_peer, happend, hsync, hup, hresync]
    · simp [create_client_from_ip, rollback_awg_peer, happend, hsync, hup, hresync]
      split <;> rfl
  | false =>
    have hupd : plan.updateFails = true := by
      rcases hfail with h | h
      · rw [hup] at h
        exact absurd h (by decide)
      · exact h
    constructor
    · simp [create_client_from_ip, rollback_awg_peer, happend, hsync, hup, hupd, hresync]
    · simp [create_client_from_ip, rollback_awg_peer, happend, hsync, hup, hupd, hresync]
      split <;> rfl

/-- **C10 witness.** Concrete run: the record update fails, the compensating
re-sync raises, and the row with id 1 remains. -/
theorem C10_resync_not_best_effort_witness :
    (create_client_from_ip
        { doc := lc "[Interface]\nX = 1\n", db := [], minio := [], nextId := 1 }
        { appendFails := false, syncFails := false, rollbackRemoveFails := false,
          uploadFails := false, updateFails := true, dbDeleteFails := false,
          resyncFails := true }
        (lc "c") (lc "priv") (lc "K") (lc "P") (lc "10.8.0.2")).1
      = Except.error PyErr.awgServiceError ∧
    (create_client_from_ip
        { doc := lc "[Interface]\nX = 1\n", db := [], minio := [], nextId := 1 }
        { appendFails := false, syncFails := false, rollbackRemoveFails := false,
          uploadFails := false, updateFails := true, dbDeleteFails := false,
          resyncFails := true }
        (lc "c") (lc "priv") (lc "K") (lc "P") (lc "10.8.0.2")).2.db
      = [] ++ [PeerRec.mk 1 (lc "c") (lc "K") (lc "10.8.0.2") (lc "P") none] :=
  C10_resync_not_best_effort
    { doc := lc "[Interface]\nX = 1\n", db := [], minio := [], nextId := 1 }
    { appendFails := false, syncFails := false, rollbackRemoveFails := false,
      uploadFails := false, updateFails := true, dbDeleteFails := false,
      resyncFails := true }
    (lc "c") (lc "priv") (lc "K") (lc "P") (lc "10.8.0.2")
    rfl rfl rfl (Or.inr rfl)

/-- **C3.** For a delete call on an existing peer with a configured server:
the row is deleted from persistence no matter which engine steps fail; the
call returns the record when nothing failed and otherwise a
`cleanupError` whose step list holds exactly the steps that failed (the
MinIO steps only count when the row has an artifact key); and any error it
returns is such a partial-failure report, never a bare engine exception. -/
theorem C3_delete_partial_failures (st : WorldState) (plan : DeletePlan)
    (server : Option SrvCfg) (cid : Nat) (client : PeerRec)
    (hfind : st.db.find? (fun r => r.rid == cid) = some client)
    (cfg : SrvCfg) (hsrv : ensure_server_configured server = Except.ok cfg) :
    (∀ rec ∈ (delete_client_model st plan server cid).2.db, rec.rid ≠ cid) ∧
    ((delete_client_model st plan server cid).1 = Except.ok client ↔
      (plan.removeFails = false ∧ plan.syncFails = false ∧
        (client.configKey.isSome = true →
          plan.minioAwgFails = false ∧ plan.minioAmneziaFails = false))) ∧
    (∀ errs, (delete_client_model st plan server cid).1
        = Except.error (PyErr.cleanupError errs) →
      ((CleanupStep.removePeer ∈ errs ↔ plan.removeFails = true) ∧
       (CleanupStep.syncConfig ∈ errs ↔ plan.syncFails = true) ∧
       (CleanupStep.minioAwg ∈ errs ↔
          (client.configKey.isSome && plan.minioAwgFails) = true) ∧
       (CleanupStep.minioAmnezia ∈ errs ↔
          (client.configKey.isSome && plan.minioAmneziaFails) = true))) ∧
    (∀ e, (delete_client_model st plan server cid).1 = Except.error e →
      ∃ errs, e = PyErr.cleanupError errs) := by
  have hdb : (delete_client_model st plan server cid).2.db = dbDelete st.db cid := by
    unfold delete_client_model
    rw [hfind, hsrv]
    cases hr : plan.removeFails <;> cases hs : plan.syncFails <;>
      cases hk : client.configKey.isSome <;> cases ha : plan.minioAwgFails <;>
      cases hb : plan.minioAmneziaFails <;> simp_all
  refine ⟨fun rec hrec => dbDelete_clears _ _ rec (hdb ▸ hrec), ?_, ?_, ?_⟩ <;>
    unfold delete_client_model <;>
    rw [hfind, hsrv] <;>
    cases hr : plan.removeFails <;> cases hs : plan.syncFails <;>
      cases hk : client.configKey.isSome <;> cases ha : plan.minioAwgFails <;>
      cases hb : plan.minioAmneziaFails <;> simp_all

/-- **C3 witness.** Concrete run: stanza removal and the `_awg` artifact
delete fail; the row disappears and the error reports exactly those steps. -/
theorem C3_delete_partial_failures_witness :
    (∀ rec ∈ (delete_client_model
        { doc := lc "[Interface]\nX = 1\n", minio := [],
          db := [PeerRec.mk 7 (lc "c") (lc "K") (lc "10.8.0.2") (lc "P")
                  (some (lc "configs/7_awg.conf"))],
          nextId := 8 }
        { removeFails := true, syncFails := false, minioAwgFails := true,
          minioAmneziaFails := false }
        (some { server_public_key := lc "S", container_name := lc "cont",
                awg_subnet_ip := lc "10.8.0.0/24" })
        7).2.db, rec.rid ≠ 7) ∧
    ((delete_client_model
        { doc := lc "[Interface]\nX = 1\n", minio := [],
          db := [PeerRec.mk 7 (lc "c") (lc "K") (lc "10.8.0.2") (lc "P")
                  (some (lc "configs/7_awg.conf"))],
          nextId := 8 }
        { removeFails := true, syncFails := false, minioAwgFails := true,
          minioAmneziaFails := false }
        (some { server_public_key := lc "S", container_name := lc "cont",
                awg_subnet_ip := lc "10.8.0.0/24" })
        7).1 = Except.ok (PeerRec.mk 7 (lc "c") (lc "K") (lc "10.8.0.2") (lc "P")
                  (some (lc "configs/7_awg.conf"))) ↔
      (true = false ∧ false = false ∧
        ((some (lc "configs/7_awg.conf") : Option (List Char)).isSome = true →
          true = false ∧ false = false))) ∧
    (∀ errs, (delete_client_model
        { doc := lc "[Interface]\nX = 1\n", minio := [],
          db := [PeerRec.mk 7 (lc "c") (lc "K") (lc "10.8.0.2") (lc "P")
                  (some (lc "configs/7_awg.conf"))],
          nextId := 8 }
        { removeFails := true, syncFails := false, minioAwgFails := true,
          minioAmneziaFails := false }
        (some { server_public_key := lc "S", container_name := lc "cont",
                awg_subnet_ip := lc "10.8.0.0/24" })
        7).1 = Except.error (PyErr.cleanupError errs) →
      ((CleanupStep.removePeer ∈ errs ↔ true = true) ∧
       (CleanupStep.syncConfig ∈ errs ↔ false = true) ∧
       (CleanupStep.minioAwg ∈ errs ↔
          ((some (lc "configs/7_awg.conf") : Option (List Char)).isSome && true) = true) ∧
       (CleanupStep.minioAmnezia ∈ errs ↔
          ((some (lc "configs/7_awg.conf") : Option (List Char)).isSome && false) = true))) ∧
    (∀ e, (delete_client_model
        { doc := lc "[Interface]\nX = 1\n", minio := [],
          db := [PeerRec.mk 7 (lc "c") (lc "K") (lc "10.8.0.2") (lc "P")
                  (some (lc "configs/7_awg.conf"))],
          nextId := 8 }
        { removeFails := true, syncFails := false, minioAwgFails := true,
          minioAmneziaFails := false }
        (some { server_public_key := lc "S", container_name := lc "cont",
                awg_subnet_ip := lc "10.8.0.0/24" })
        7).1 = Except.error e → ∃ errs, e = PyErr.cleanupError errs) :=
  C3_delete_partial_failures
    { doc := lc "[Interface]\nX = 1\n", minio := [],
      db := [PeerRec.mk 7 (lc "c") (lc "K") (lc "10.8.0.2") (lc "P")
              (some (lc "configs/7_awg.conf"))],
      nextId := 8 }
    { removeFails := true, syncFails := false, minioAwgFails := true,
      minioAmneziaFails := false }
    (some { server_public_key := lc "S", container_name := lc "cont",
            awg_subnet_ip := lc "10.8.0.0/24" })
    7
    (PeerRec.mk 7 (lc "c") (lc "K") (lc "10.8.0.2") (lc "P")
      (some (lc "configs/7_awg.conf")))
    (by decide)
    { server_public_key := lc "S", container_name := lc "cont",
      awg_subnet_ip := lc "10.8.0.0/24" }
    (by decide)

/-- **C5.** Whenever the decoded payload's deflate stream decompresses
successfully but the decompressed length differs from the embedded 4-byte
big-endian length field, `decode_config` rejects with `ValueError` (the
check sits outside the `except zlib.error` clause, so it is not swallowed). -/
theorem C5_length_mismatch {Doc : Type} (J : JsonModel Doc) (Z : ZlibModel)
    (s : List Char) (bs : List Nat)
    (hdec : urlsafe_b64decode
        (replaceAll (lc "vpn://") s ++
          List.replicate (4 - (replaceAll (lc "vpn://") s).length % 4) '=')
      = some bs)
    (out : List Nat) (hz : Z.decompress (bs.drop 4) = Except.ok out)
    (hlen : out.length ≠ beBytesToNat (bs.take 4)) :
    decode_config J Z s = Except.error PyErr.valueError := by
  unfold decode_config
  dsimp only
  rw [hdec]
  dsimp only
  rw [hz]
  dsimp only
  rw [if_pos hlen]

/-- **C5 witness.** The payload `vpn://AAAABQECAw` decodes to the bytes
`[0,0,0,5,1,2,3]`: the length field says 5 but the (identity-codec) stream
is 3 bytes long, so decoding rejects with `ValueError`. -/
theorem C5_length_mismatch_witness :
    decode_config unitJson idZlib (lc "vpn://AAAABQECAw")
      = Except.error PyErr.valueError :=
  C5_length_mismatch unitJson idZlib (lc "vpn://AAAABQECAw")
    [0, 0, 0, 5, 1, 2, 3] (by decide) [1, 2, 3] rfl (by decide)

/-! ## Base64 and scheme-stripping lemmas for the codec round-trip -/

theorem b64char_mem (n : Nat) : b64char n ∈ b64alphabet := by
  unfold b64char
  by_cases h : n < b64alphabet.length
  · rw [List.getD_eq_getElem _ _ h]
    exact List.getElem_mem _
  · rw [List.getD_eq_default _ _ (by omega)]
    decide

theorem b64char_ne_pad (n : Nat) : b64char n ≠ '=' := by
  intro h
  have hm := b64char_mem n
  rw [h] at hm
  exact absurd hm (by decide)

theorem b64index_b64char : ∀ n < 64, b64index (b64char n) = some n := by decide

theorem b64encodeBytes_chars : ∀ bs, ∀ c ∈ b64encodeBytes bs,
    c ∈ b64alphabet ∨ c = '=' := by
  intro bs
  induction bs using b64encodeBytes.induct with
  | case1 =>
    intro c hc
    simp [b64encodeBytes] at hc
  | case2 b1 =>
    intro c hc
    simp only [b64encodeBytes, List.mem_cons, List.not_mem_nil, or_false] at hc
    rcases hc with h | h | h | h
    · exact Or.inl (h ▸ b64char_mem _)
    · exact Or.inl (h ▸ b64char_mem _)
    · exact Or.inr h
    · exact Or.inr h
  | case3 b1 b2 =>
    intro c hc
    simp only [b64encodeBytes, List.mem_cons, List.not_mem_nil, or_false] at hc
    rcases hc with h | h | h | h
    · exact Or.inl (h ▸ b64char_mem _)
    · exact Or.inl (h ▸ b64char_mem _)
    · exact Or.inl (h ▸ b64char_mem _)
    · exact Or.inr h
  | case4 b1 b2 b3 rest ih =>
    intro c hc
    simp only [b64encodeBytes, List.mem_cons] at hc
    rcases hc with h | h | h | h | h
    · exact Or.inl (h ▸ b64char_mem _)
    · exact Or.inl (h ▸ b64char_mem _)
    · exact Or.inl (h ▸ b64char_mem _)
    · exact Or.inl (h ▸ b64char_mem _)
    · exact ih c h

theorem dropWhile_eq_self_of_all_false (p : Char → Bool) (l : List Char)
    (h : ∀ c ∈ l, p c = false) : l.dropWhile p = l := by
  cases l with
  | nil => rfl
  | cons c t =>
    rw [List.dropWhile_cons, if_neg (by simp [h c (List.mem_cons_self c t)])]

theorem rstripEq_append_free (x y : List Char) (hx : ∀ c ∈ x, c ≠ '=') :
    rstripEq (x ++ y) = x ++ rstripEq y := by
  unfold rstripEq
  rw [List.reverse_append, List.dropWhile_append]
  by_cases hemp : (y.reverse.dropWhile (fun c => c = '=')).isEmpty = true
  · rw [if_pos hemp]
    rw [List.isEmpty_iff] at hemp
    rw [hemp, List.reverse_nil, List.append_nil]
    rw [dropWhile_eq_self_of_all_false _ x.reverse
      (fun c hc => by simp [hx c (List.mem_reverse.mp hc)])]
    exact List.reverse_reverse x
  · rw [if_neg hemp, List.reverse_append, List.reverse_reverse]

theorem rstripEq_append_replicate (x : List Char) (k : Nat) :
    rstripEq (x ++ List.replicate k '=') = rstripEq x := by
  unfold rstripEq
  rw [List.reverse_append, List.dropWhile_append]
  rw [if_pos ?hemp]
  case hemp =>
    rw [List.isEmpty_iff]
    apply List.dropWhile_eq_nil_iff.mpr
    intro c hc
    rw [List.mem_reverse] at hc
    have := List.eq_of_mem_replicate hc
    simp [this]

theorem dropWhile_head_false (p : Char → Bool) (l : List Char) (a : Char) (t : List Char)
    (h : l.dropWhile p = a :: t) : p a = false := by
  induction l with
  | nil => simp at h
  | cons c cs ih =>
    rw [List.dropWhile_cons] at h
    by_cases hc : p c = true
    · rw [if_pos hc] at h
      exact ih h
    · rw [if_neg hc] at h
      injection h with h1 h2
      subst h1
      simpa using hc

theorem rstripEq_idem (x : List Char) : rstripEq (rstripEq x) = rstripEq x := by
  unfold rstripEq
  rw [List.reverse_reverse]
  cases hd : x.reverse.dropWhile (fun c => c = '=') with
  | nil => simp
  | cons a t =>
    rw [List.dropWhile_cons, if_neg (by simp [dropWhile_head_false _ _ _ _ hd])]

theorem replaceAllF_no_occ (p : List Char) :
    ∀ n s, s.length ≤ n → containsSub p s = false → replaceAllF p n s = s := by
  intro n
  induction n with
  | zero =>
    intro s hs _
    have hnil : s = [] := List.length_eq_zero.mp (Nat.le_zero.mp hs)
    subst hnil
    rfl
  | succ m ih =>
    intro s hs hc
    cases s with
    | nil => rfl
    | cons c rest =>
      show (if p.length ≠ 0 ∧ lstartsWith p (c :: rest) = true then
          replaceAllF p m ((c :: rest).drop p.length)
        else
          c :: replaceAllF p m rest) = c :: rest
      rw [if_neg ?hneg]
      case hneg =>
        rintro ⟨-, hst⟩
        have := containsSub_of_occurrence p (c :: rest) 0 hst
        rw [hc] at this
        exact Bool.false_ne_true this
      have hcr : containsSub p rest = false := by
        cases h2 : containsSub p rest with
        | false => rfl
        | true =>
          have := containsSub_of_drop p (c :: rest) 1 h2
          rw [hc] at this
          exact absurd this Bool.false_ne_true
      rw [ih rest (by simpa [Nat.succ_le_succ_iff] using hs) hcr]

/-- `str.replace(p, "")` on `p ++ body` removes the leading occurrence and
keeps the occurrence-free remainder. -/
theorem replaceAll_pre (p body : List Char) (hp : p ≠ [])
    (hocc : containsSub p body = false) : replaceAll p (p ++ body) = body := by
  cases p with
  | nil => exact absurd rfl hp
  | cons c ps =>
    show replaceAllF (c :: ps) ((c :: ps) ++ body).length ((c :: ps) ++ body) = body
    rw [show ((c :: ps) ++ body).length = (ps ++ body).length + 1 from by simp]
    show (if (c :: ps).length ≠ 0 ∧
          lstartsWith (c :: ps) (c :: (ps ++ body)) = true then
        replaceAllF (c :: ps) (ps ++ body).length
          ((c :: (ps ++ body)).drop (c :: ps).length)
      else
        c :: replaceAllF (c :: ps) (ps ++ body).length (ps ++ body)) = body
    rw [if_pos ⟨by simp, by
      rw [show (c :: (ps ++ body)) = (c :: ps) ++ body from rfl]
      exact lstartsWith_self_append _ _⟩]
    rw [show (c :: (ps ++ body)) = (c :: ps) ++ body from rfl, List.drop_left]
    exact replaceAllF_no_occ (c :: ps) (ps ++ body).length body (by simp) hocc

theorem beBytesToNat_natToBytesBE4 (n : Nat) (h : n < 4294967296) :
    beBytesToNat (natToBytesBE4 n) = n := by
  show ((((0 * 256 + n / 16777216 % 256) * 256 + n / 65536 % 256) * 256
      + n / 256 % 256) * 256 + n % 256) = n
  omega

theorem natToBytesBE4_bytes (n : Nat) : ∀ b ∈ natToBytesBE4 n, b < 256 := by
  intro b hb
  unfold natToBytesBE4 at hb
  simp only [List.mem_cons, List.not_mem_nil, or_false] at hb
  rcases hb with h | h | h | h <;> subst h <;> omega

theorem b64_roundtrip_aux :
    ∀ n bs, bs.length ≤ n → (∀ b ∈ bs, b < 256) →
      b64decodeChunks (rstripEq (b64encodeBytes bs)) = some bs := by
  intro n
  induction n with
  | zero =>
    intro bs hlen _
    have hnil : bs = [] := List.length_eq_zero.mp (Nat.le_zero.mp hlen)
    subst hnil
    rfl
  | succ m ih =>
    intro bs hlen hb
    cases bs with
    | nil => rfl
    | cons b1 t1 =>
      have hb1 : b1 < 256 := hb b1 (by simp)
      cases t1 with
      | nil =>
        have henc : b64encodeBytes [b1]
            = [b64char (b1 / 4), b64char (b1 % 4 * 16)] ++ ['=', '='] := rfl
        rw [henc, rstripEq_append_free _ _ ?hf1]
        case hf1 =>
          intro c hc
          simp only [List.mem_cons, List.not_mem_nil, or_false] at hc
          rcases hc with h | h <;> exact h ▸ b64char_ne_pad _
        rw [show rstripEq ['=', '='] = [] from by decide, List.append_nil]
        show (match b64index (b64char (b1 / 4)), b64index (b64char (b1 % 4 * 16)) with
          | some s1, some s2 => some [s1 * 4 + s2 / 16]
          | _, _ => none) = some [b1]
        rw [b64index_b64char (b1 / 4) (by omega),
          b64index_b64char (b1 % 4 * 16) (by omega)]
        dsimp only
        have harith : b1 / 4 * 4 + b1 % 4 * 16 / 16 = b1 := by omega
        rw [harith]
      | cons b2 t2 =>
        have hb2 : b2 < 256 := hb b2 (by simp)
        cases t2 with
        | nil =>
          have henc : b64encodeBytes [b1, b2]
              = [b64char (b1 / 4), b64char (b1 % 4 * 16 + b2 / 16),
                 b64char (b2 % 16 * 4)] ++ ['='] := rfl
          rw [henc, rstripEq_append_free _ _ ?hf2]
          case hf2 =>
            intro c hc
            simp only [List.mem_cons, List.not_mem_nil, or_false] at hc
            rcases hc with h | h | h <;> exact h ▸ b64char_ne_pad _
          rw [show rstripEq ['='] = [] from by decide, List.append_nil]
          show (match b64index (b64char (b1 / 4)),
              b64index (b64char (b1 % 4 * 16 + b2 / 16)),
              b64index (b64char (b2 % 16 * 4)) with
            | some s1, some s2, some s3 =>
              some [s1 * 4 + s2 / 16, s2 % 16 * 16 + s3 / 4]
            | _, _, _ => none) = some [b1, b2]
          rw [b64index_b64char (b1 / 4) (by omega),
            b64index_b64char (b1 % 4 * 16 + b2 / 16) (by omega),
            b64index_b64char (b2 % 16 * 4) (by omega)]
          dsimp only
          have ha1 : b1 / 4 * 4 + (b1 % 4 * 16 + b2 / 16) / 16 = b1 := by omega
          have ha2 : (b1 % 4 * 16 + b2 / 16) % 16 * 16 + b2 % 16 * 4 / 4 = b2 := by omega
          rw [ha1, ha2]
        | cons b3 rest =>
          have hb3 : b3 < 256 := hb b3 (by simp)
          have hrest : ∀ b ∈ rest, b < 256 := by
            intro b hbm
            exact hb b (by simp [hbm])
          have hlen2 : rest.length ≤ m := by
            simp only [List.length_cons] at hlen
            omega
          have henc : b64encodeBytes (b1 :: b2 :: b3 :: rest)
              = [b64char (b1 / 4), b64char (b1 % 4 * 16 + b2 / 16),
                 b64char (b2 % 16 * 4 + b3 / 64), b64char (b3 % 64)]
                ++ b64encodeBytes rest := rfl
          rw [henc, rstripEq_append_free _ _ ?hf3]
          case hf3 =>
            intro c hc
            simp only [List.mem_cons, List.not_mem_nil, or_false] at hc
            rcases hc with h | h | h | h <;> exact h ▸ b64char_ne_pad _
          show (match b64index (b64char (b1 / 4)),
              b64index (b64char (b1 % 4 * 16 + b2 / 16)),
              b64index (b64char (b2 % 16 * 4 + b3 / 64)),
              b64index (b64char (b3 % 64)) with
            | some s1, some s2, some s3, some s4 =>
              (b64decodeChunks (rstripEq (b64encodeBytes rest))).map
                (fun tail => (s1 * 4 + s2 / 16) :: (s2 % 16 * 16 + s3 / 4) ::
                  (s3 % 4 * 64 + s4) :: tail)
            | _, _, _, _ => none) = some (b1 :: b2 :: b3 :: rest)
          rw [b64index_b64char (b1 / 4) (by omega),
            b64index_b64char (b1 % 4 * 16 + b2 / 16) (by omega),
            b64index_b64char (b2 % 16 * 4 + b3 / 64) (by omega),
            b64index_b64char (b3 % 64) (by omega)]
          dsimp only
          rw [ih rest hlen2 hrest]
          simp only [Option.map_some']
          have ha1 : b1 / 4 * 4 + (b1 % 4 * 16 + b2 / 16) / 16 = b1 := by omega
          have ha2 : (b1 % 4 * 16 + b2 / 16) % 16 * 16
              + (b2 % 16 * 4 + b3 / 64) / 4 = b2 := by omega
          have ha3 : (b2 % 16 * 4 + b3 / 64) % 4 * 64 + b3 % 64 = b3 := by omega
          rw [ha1, ha2, ha3]

/-- Base64url round-trip as the decoder performs it: strip the padding, then
decode; every byte list below 256 comes back unchanged. -/
theorem b64_roundtrip (bs : List Nat) (hb : ∀ b ∈ bs, b < 256) :
    b64decodeChunks (rstripEq (b64encodeBytes bs)) = some bs :=
  b64_roundtrip_aux bs.length bs (Nat.le_refl _) hb

/-- **C4.** For every JSON-serializable document (any `JsonModel` document
type), whenever encoding succeeds, decoding the produced `vpn://` string
restores the document: `decode_config (encode_config x) = x` under the
standard `json`/`zlib` contracts. -/
theorem C4_codec_roundtrip {Doc : Type} (J : JsonModel Doc) (Z : ZlibModel) (x : Doc)
    (enc : List Char) (henc : encode_config J Z x = Except.ok enc) :
    decode_config J Z enc = Except.ok x := by
  unfold encode_config at henc
  dsimp only at henc
  by_cases hlen : (J.dumps x).length < 4294967296
  · rw [if_pos hlen] at henc
    injection henc with henc
    subst henc
    have hbytes : ∀ b ∈ natToBytesBE4 (J.dumps x).length ++ Z.compress (J.dumps x),
        b < 256 := by
      intro b hbm
      rcases List.mem_append.mp hbm with h | h
      · exact natToBytesBE4_bytes _ b h
      · exact Z.compress_bytes (J.dumps x) (J.dumps_bytes x) b h
    have hfree : containsSub (lc "vpn://")
        (rstripEq (b64encodeBytes
          (natToBytesBE4 (J.dumps x).length ++ Z.compress (J.dumps x)))) = false := by
      cases hcs : containsSub (lc "vpn://")
          (rstripEq (b64encodeBytes
            (natToBytesBE4 (J.dumps x).length ++ Z.compress (J.dumps x)))) with
      | false => rfl
      | true =>
        exfalso
        have hcol : ':' ∈ rstripEq (b64encodeBytes
            (natToBytesBE4 (J.dumps x).length ++ Z.compress (J.dumps x))) :=
          mem_of_containsSub _ _ ':' (by decide) hcs
        have hcol2 : ':' ∈ b64encodeBytes
            (natToBytesBE4 (J.dumps x).length ++ Z.compress (J.dumps x)) := by
          unfold rstripEq at hcol
          rw [List.mem_reverse] at hcol
          have hsubl := List.dropWhile_sublist (l := (b64encodeBytes
            (natToBytesBE4 (J.dumps x).length ++ Z.compress (J.dumps x))).reverse)
            (p := fun c => c = '=')
          have := hsubl.mem hcol
          rw [List.mem_reverse] at this
          exact this
        rcases b64encodeBytes_chars _ ':' hcol2 with h | h
        · exact absurd h (by decide)
        · exact absurd h (by decide)
    unfold decode_config
    dsimp only
    rw [replaceAll_pre _ _ (by decide) hfree]
    simp only [urlsafe_b64decode]
    rw [rstripEq_append_replicate, rstripEq_idem]
    rw [b64_roundtrip _ hbytes]
    dsimp only
    rw [show (natToBytesBE4 (J.dumps x).length ++ Z.compress (J.dumps x)).take 4
        = natToBytesBE4 (J.dumps x).length from by
      rw [show (4 : Nat) = (natToBytesBE4 (J.dumps x).length).length from rfl]
      exact List.take_left _ _]
    rw [show (natToBytesBE4 (J.dumps x).length ++ Z.compress (J.dumps x)).drop 4
        = Z.compress (J.dumps x) from by
      rw [show (4 : Nat) = (natToBytesBE4 (J.dumps x).length).length from rfl]
      exact List.drop_left _ _]
    rw [Z.decompress_compress]
    dsimp only
    rw [beBytesToNat_natToBytesBE4 _ hlen]
    rw [if_neg (by simp)]
    exact J.loads_dumps x
  · rw [if_neg hlen] at henc
    exact absurd henc (by simp)

/-- **C4 witness.** The unit document under the identity codec encodes to
`vpn://AAAAAW4` and decodes back to it. -/
theorem C4_codec_roundtrip_witness :
    decode_config unitJson idZlib (lc "vpn://AAAAAW4") = Except.ok () :=
  C4_codec_roundtrip unitJson idZlib () (lc "vpn://AAAAAW4") (by decide)
